import Mathlib

/-!
Shallow embedding of the upgrade-path planning engine of the
`rancher-upgrade-tool` repository (`src/main.go`), together with proofs of
the specified properties of `PlanUpgrade`, `GetKeyVersions`,
`GetAllowedK8sUpgrades`, `findNextAcceptableK8sVersion`,
`getSortedK8sVersions` and `getMinorVersionsBetween`.

Semantic versions are modelled after the `hashicorp/go-version` library the
program uses, restricted to plain numeric dotted versions (an optional
leading `v` followed by dot-separated decimal segments); pre-release and
build-metadata suffixes, which the repository's data never uses and no
claim depends on, are not modelled (strings carrying them simply fail to
parse in the model).  As in `go-version`, parsing pads the segment list to
at least three entries, comparison zero-pads the shorter list, and the
original input string is retained verbatim.
-/

/-- Comparison of two version segment lists, zero-padding the shorter list,
as in `hashicorp/go-version`'s `Compare`. -/
def cmpSegs : List Nat → List Nat → Ordering
  | [], bs => if bs.all (fun b => b = 0) then Ordering.eq else Ordering.lt
  | a :: as, [] => if 0 < a then Ordering.gt else cmpSegs as []
  | a :: as, b :: bs =>
    if a < b then Ordering.lt
    else if b < a then Ordering.gt
    else cmpSegs as bs

theorem cmpSegs_nil_right (as : List Nat) :
    cmpSegs as [] = if as.all (fun a => a = 0) then Ordering.eq else Ordering.gt := by
  induction as with
  | nil => simp [cmpSegs]
  | cons a as ih =>
    by_cases ha : a = 0
    · subst ha
      simp [cmpSegs, ih]
    · simp [cmpSegs, Nat.pos_of_ne_zero ha, ha]

theorem cmpSegs_refl (as : List Nat) : cmpSegs as as = Ordering.eq := by
  induction as with
  | nil => simp [cmpSegs]
  | cons a as ih => simp [cmpSegs, ih]

/-- A trailing all-zero right argument compares like the empty list. -/
theorem cmpSegs_allZero_right :
    ∀ (b c : List Nat), c.all (fun v => v = 0) → cmpSegs b c = cmpSegs b [] := by
  intro b
  induction b with
  | nil =>
    intro c hc
    simp only [cmpSegs]
    rw [if_pos hc]
    simp
  | cons x xs ih =>
    intro c hc
    cases c with
    | nil => rfl
    | cons z zs =>
      have hz : z = 0 := by
        simp [List.all_cons] at hc
        exact hc.1
      have hzs : zs.all (fun v => v = 0) := by
        simp [List.all_cons] at hc ⊢
        exact hc.2
      subst hz
      simp only [cmpSegs]
      by_cases hx : 0 < x
      · rw [if_neg (by omega), if_pos hx, if_pos hx]
      · rw [if_neg (by omega), if_neg hx, if_neg hx]
        exact ih zs hzs

theorem cmpSegs_swap (a b : List Nat) : cmpSegs b a = (cmpSegs a b).swap := by
  induction a generalizing b with
  | nil =>
    rw [cmpSegs_nil_right]
    simp only [cmpSegs]
    by_cases hb : b.all (fun x => x = 0)
    · rw [if_pos hb, if_pos hb]; rfl
    · rw [if_neg hb, if_neg hb]; rfl
  | cons x xs ih =>
    cases b with
    | nil =>
      rw [cmpSegs_nil_right]
      simp only [cmpSegs]
      by_cases hx : (x :: xs).all (fun v => v = 0)
      · rw [if_pos hx, if_pos hx]; rfl
      · rw [if_neg hx, if_neg hx]; rfl
    | cons y ys =>
      simp only [cmpSegs]
      by_cases h1 : y < x
      · rw [if_pos h1, if_neg (by omega), if_pos h1]; rfl
      · by_cases h2 : x < y
        · rw [if_neg h1, if_pos h2, if_pos h2]; rfl
        · rw [if_neg h1, if_neg h2, if_neg h2, if_neg h1]
          exact ih ys

/-- Auxiliary transitivity of `cmpSegs`, by induction on total length:
`a < b` and `b ≤ c` give `a < c`. -/
theorem cmpSegs_lt_trans_aux :
    ∀ (n : Nat) (a b c : List Nat), a.length + b.length + c.length ≤ n →
      cmpSegs a b = Ordering.lt → cmpSegs b c ≠ Ordering.gt →
      cmpSegs a c = Ordering.lt := by
  intro n
  induction n with
  | zero =>
    intro a b c hlen h1 _
    have ha : a = [] := List.eq_nil_of_length_eq_zero (by omega)
    have hb : b = [] := List.eq_nil_of_length_eq_zero (by omega)
    subst ha; subst hb
    simp [cmpSegs] at h1
  | succ n ih =>
    intro a b c hlen h1 h2
    cases a with
    | nil =>
      simp only [cmpSegs] at h1 ⊢
      by_cases hb : b.all (fun v => v = 0)
      · rw [if_pos hb] at h1; simp at h1
      · by_cases hc : c.all (fun v => v = 0)
        · rw [cmpSegs_allZero_right b c hc, cmpSegs_nil_right, if_neg hb] at h2
          exact absurd rfl h2
        · rw [if_neg hc]
    | cons x xs =>
      cases b with
      | nil =>
        rw [cmpSegs_nil_right] at h1
        by_cases hx : (x :: xs).all (fun v => v = 0) <;> simp [hx] at h1
      | cons y ys =>
        cases c with
        | nil =>
          rw [cmpSegs_nil_right] at h2
          by_cases hy : (y :: ys).all (fun v => v = 0)
          · rw [cmpSegs_allZero_right _ _ hy, cmpSegs_nil_right] at h1
            by_cases hx : (x :: xs).all (fun v => v = 0) <;> simp [hx] at h1
          · rw [if_neg hy] at h2
            exact absurd rfl h2
        | cons z zs =>
          simp only [cmpSegs] at h1 h2 ⊢
          by_cases hxy : x < y
          · by_cases hzy : z < y
            · rw [if_neg (by omega), if_pos hzy] at h2
              exact absurd rfl h2
            · rw [if_pos (by omega)]
          · by_cases hyx : y < x
            · rw [if_neg hxy, if_pos hyx] at h1
              simp at h1
            · have hxy' : x = y := by omega
              subst hxy'
              rw [if_neg hxy, if_neg hyx] at h1
              by_cases hxz : x < z
              · rw [if_pos hxz]
              · by_cases hzx : z < x
                · rw [if_neg hxz, if_pos hzx] at h2
                  exact absurd rfl h2
                · have hxz' : x = z := by omega
                  subst hxz'
                  rw [if_neg hxz, if_neg hzx] at h2
                  rw [if_neg hxz, if_neg hzx]
                  exact ih xs ys zs (by simp at hlen ⊢; omega) h1 h2

/-- A parsed semantic version as represented by `hashicorp/go-version`:
the numeric segments (padded to at least three entries by parsing) and the
original input string. -/
structure GoVersion where
  segments : List Nat
  original : String
deriving DecidableEq, Repr

/-- `go-version` `Compare` on two parsed versions. -/
def cmpV (a b : GoVersion) : Ordering := cmpSegs a.segments b.segments

/-- `go-version` `LessThan`. -/
def vlt (a b : GoVersion) : Prop := cmpV a b = Ordering.lt

/-- `go-version` `LessThanOrEqual`. -/
def vle (a b : GoVersion) : Prop := cmpV a b ≠ Ordering.gt

/-- `go-version` `Equal` (comparison-based, not structural). -/
def verEq (a b : GoVersion) : Prop := cmpV a b = Ordering.eq

instance (a b : GoVersion) : Decidable (vlt a b) :=
  inferInstanceAs (Decidable (_ = _))

instance (a b : GoVersion) : Decidable (vle a b) :=
  inferInstanceAs (Decidable (¬ _ = _))

instance (a b : GoVersion) : Decidable (verEq a b) :=
  inferInstanceAs (Decidable (_ = _))

theorem cmpV_swap (a b : GoVersion) : cmpV b a = (cmpV a b).swap :=
  cmpSegs_swap a.segments b.segments

theorem vle_refl (a : GoVersion) : vle a a := by
  simp [vle, cmpV, cmpSegs_refl]

theorem vlt_irrefl (a : GoVersion) : ¬ vlt a a := by
  simp [vlt, cmpV, cmpSegs_refl]

theorem vle_of_vlt {a b : GoVersion} (h : vlt a b) : vle a b := by
  simp [vle, cmpV, vlt] at *
  simp [h]

theorem vlt_asymm {a b : GoVersion} (h : vlt a b) : ¬ vlt b a := by
  intro h'
  rw [vlt, cmpV_swap, h] at h'
  simp [Ordering.swap] at h'

theorem vlt_of_not_vle {a b : GoVersion} (h : ¬ vle a b) : vlt b a := by
  rw [vle] at h
  push_neg at h
  rw [vlt, cmpV_swap, h]
  rfl

theorem vle_of_not_vlt {a b : GoVersion} (h : ¬ vlt a b) : vle b a := by
  rw [vlt] at h
  rw [vle, cmpV_swap]
  intro hc
  exact h (by cases hcab : cmpV a b <;> simp [hcab, Ordering.swap] at hc ⊢)

theorem not_vlt_of_vle {a b : GoVersion} (h : vle a b) : ¬ vlt b a := by
  intro h'
  rw [vlt, cmpV_swap] at h'
  rw [vle] at h
  cases hcab : cmpV a b <;> simp [hcab, Ordering.swap] at h' h ⊢

theorem vle_total (a b : GoVersion) : vle a b ∨ vle b a := by
  by_cases h : vle a b
  · exact Or.inl h
  · exact Or.inr (vle_of_vlt (vlt_of_not_vle h))

theorem vlt_of_vlt_of_vle {a b c : GoVersion} (h1 : vlt a b) (h2 : vle b c) :
    vlt a c :=
  cmpSegs_lt_trans_aux
    (a.segments.length + b.segments.length + c.segments.length)
    a.segments b.segments c.segments le_rfl h1 h2

theorem vlt_of_vle_of_vlt {a b c : GoVersion} (h1 : vle a b) (h2 : vlt b c) :
    vlt a c := by
  by_contra hac
  have h1' : vle c a := vle_of_not_vlt hac
  have : vlt b a := vlt_of_vlt_of_vle h2 h1'
  exact not_vlt_of_vle h1 this

theorem vlt_trans {a b c : GoVersion} (h1 : vlt a b) (h2 : vlt b c) : vlt a c :=
  vlt_of_vlt_of_vle h1 (vle_of_vlt h2)

theorem vle_trans {a b c : GoVersion} (h1 : vle a b) (h2 : vle b c) : vle a c := by
  by_contra hac
  have h3 : vlt c a := vlt_of_not_vle hac
  exact not_vlt_of_vle h2 (vlt_of_vlt_of_vle h3 h1)

theorem verEq_of_not_lt_not_gt {a b : GoVersion} (h1 : ¬ vlt a b) (h2 : vle a b) :
    verEq a b := by
  rw [vlt] at h1
  rw [vle] at h2
  rw [verEq]
  cases h : cmpV a b <;> simp [h] at h1 h2 ⊢

theorem verEq_refl (a : GoVersion) : verEq a a := by
  simp [verEq, cmpV, cmpSegs_refl]

instance : IsTotal GoVersion vle := ⟨vle_total⟩

instance : IsTrans GoVersion vle := ⟨fun _ _ _ => vle_trans⟩

/-- `Segments()[0]` of a parsed version (major component). -/
def majorOf (v : GoVersion) : Nat := v.segments.getD 0 0

/-- `Segments()[1]` of a parsed version (minor component). -/
def minorOf (v : GoVersion) : Nat := v.segments.getD 1 0

/-- ASCII decimal digit test. -/
def isDigitChar (c : Char) : Bool := 48 ≤ c.toNat && c.toNat ≤ 57

/-- The ASCII digit character for `n < 10`. -/
def digitChar (n : Nat) : Char := Char.ofNat (48 + n)

/-- Decimal representation of a natural number (fuel-based so that it
evaluates by kernel reduction); used with fuel `n + 1` by `natChars`. -/
def natCharsAux : Nat → Nat → List Char
  | 0, _ => []
  | fuel+1, n =>
    if n < 10 then [digitChar n]
    else natCharsAux fuel (n / 10) ++ [digitChar (n % 10)]

/-- Decimal representation of a natural number, as Go's `%d`. -/
def natChars (n : Nat) : List Char := natCharsAux (n + 1) n

/-- Value of a decimal digit string. -/
def digitsVal (cs : List Char) : Nat :=
  cs.foldl (fun a c => 10 * a + (c.toNat - 48)) 0

/-- Parse a nonempty all-digit character group as a natural number. -/
def parseDigits (cs : List Char) : Option Nat :=
  if cs.isEmpty then none
  else if cs.all isDigitChar then some (digitsVal cs) else none

/-- Split a character list on `'.'` (as the `go-version` regex groups
`[0-9]+(\.[0-9]+)*` are delimited). -/
def splitDots : List Char → List (List Char)
  | [] => [[]]
  | c :: cs =>
    if c = '.' then [] :: splitDots cs
    else
      match splitDots cs with
      | [] => [[c]]
      | g :: gs => (c :: g) :: gs

/-- Join character groups with `'.'` separators (inverse of `splitDots`). -/
def joinDots : List (List Char) → List Char
  | [] => []
  | [g] => g
  | g :: gs => g ++ '.' :: joinDots gs

/-- `go-version` parse padding: segment lists are padded to length 3. -/
def padSegs (l : List Nat) : List Nat := l ++ List.replicate (3 - l.length) 0

/-- The characters of a version string after dropping the optional
leading `v` accepted by the `go-version` regex. -/
def verCore (s : String) : List Char :=
  if s.data.head? = some 'v' then s.data.tail else s.data

/-- Model of `go-version`'s `NewVersion`: an optional leading `v` followed
by dot-separated decimal segments; the original string is kept verbatim
and the segment list is padded to at least three entries.  (Pre-release and
build-metadata suffixes are not modelled; see the module docstring.) -/
def NewVersion (s : String) : Option GoVersion :=
  match (splitDots (verCore s)).mapM parseDigits with
  | none => none
  | some segs => some ⟨padSegs segs, s⟩

/-- Model of `go-version`'s `String()`: all numeric segments joined by
dots (no pre-release/metadata in the model). -/
def verString (v : GoVersion) : String := ⟨joinDots (v.segments.map natChars)⟩

/-- `cleanVersion` from `src/main.go`: strip one leading `"v"`. -/
def cleanVersion (v : String) : String :=
  if v.data.head? = some 'v' then String.mk v.data.tail else v

/-- ASCII lower-casing of one character (model of Go `strings.ToLower`,
which the repository only applies to ASCII platform names). -/
def lowerChar (c : Char) : Char :=
  if 65 ≤ c.toNat ∧ c.toNat ≤ 90 then Char.ofNat (c.toNat + 32) else c

/-- ASCII lower-casing of a string. -/
def lowerStr (s : String) : String := String.mk (s.data.map lowerChar)

/-- Go `strings.HasSuffix`. -/
def hasSuffixStr (s suf : String) : Bool := suf.data.isSuffixOf s.data

/-- `parseK8sVersion` from `src/main.go` (the log write is I/O only). -/
def parseK8sVersion (v : String) : Option GoVersion := NewVersion (cleanVersion v)

theorem digitChar_toNat : ∀ d < 10, (digitChar d).toNat = 48 + d := by decide

theorem digitChar_isDigit : ∀ d < 10, isDigitChar (digitChar d) = true := by decide

theorem isDigitChar_ne_dot {c : Char} (h : isDigitChar c = true) : c ≠ '.' := by
  intro hc
  subst hc
  simp [isDigitChar] at h

theorem isDigitChar_ne_v {c : Char} (h : isDigitChar c = true) : c ≠ 'v' := by
  intro hc
  subst hc
  simp [isDigitChar] at h

theorem digitsVal_append_digit (xs : List Char) (c : Char) :
    digitsVal (xs ++ [c]) = 10 * digitsVal xs + (c.toNat - 48) := by
  simp [digitsVal, List.foldl_append]

theorem natCharsAux_spec :
    ∀ (fuel n : Nat), n < 10 ^ fuel →
      (natCharsAux (fuel + 1) n).all isDigitChar = true ∧
      natCharsAux (fuel + 1) n ≠ [] ∧
      digitsVal (natCharsAux (fuel + 1) n) = n := by
  intro fuel
  induction fuel with
  | zero =>
    intro n hn
    have hn' : n < 10 := by simp at hn; omega
    have heq : natCharsAux 1 n = [digitChar n] := by
      show (if n < 10 then [digitChar n] else _) = _
      rw [if_pos hn']
    rw [heq]
    refine ⟨by simp [digitChar_isDigit n hn'], by simp, ?_⟩
    simp [digitsVal, digitChar_toNat n hn']
  | succ f ih =>
    intro n hn
    by_cases hsmall : n < 10
    · have heq : natCharsAux (f + 1 + 1) n = [digitChar n] := by
        show (if n < 10 then [digitChar n] else _) = _
        rw [if_pos hsmall]
      rw [heq]
      refine ⟨by simp [digitChar_isDigit n hsmall], by simp, ?_⟩
      simp [digitsVal, digitChar_toNat n hsmall]
    · have heq : natCharsAux (f + 1 + 1) n =
          natCharsAux (f + 1) (n / 10) ++ [digitChar (n % 10)] := by
        show (if n < 10 then [digitChar n] else _) = _
        rw [if_neg hsmall]
      rw [heq]
      have hdiv : n / 10 < 10 ^ f := by
        rw [Nat.div_lt_iff_lt_mul (by norm_num)]
        calc n < 10 ^ (f + 1) := hn
        _ = 10 ^ f * 10 := by ring
      obtain ⟨hall, hne, hval⟩ := ih (n / 10) hdiv
      have hmod : n % 10 < 10 := Nat.mod_lt _ (by norm_num)
      refine ⟨?_, by simp, ?_⟩
      · rw [List.all_append, hall]
        simp [digitChar_isDigit _ hmod]
      · rw [digitsVal_append_digit, hval, digitChar_toNat _ hmod]
        omega

theorem natChars_spec (n : Nat) :
    (natChars n).all isDigitChar = true ∧ natChars n ≠ [] ∧
      digitsVal (natChars n) = n := by
  have h : n < 10 ^ n := Nat.lt_pow_self (by norm_num) n
  exact natCharsAux_spec n n h

theorem parseDigits_natChars (n : Nat) : parseDigits (natChars n) = some n := by
  obtain ⟨hall, hne, hval⟩ := natChars_spec n
  simp [parseDigits, hne, hall, hval, List.isEmpty_iff]

theorem splitDots_ne_nil (cs : List Char) : splitDots cs ≠ [] := by
  cases cs with
  | nil => simp [splitDots]
  | cons c cs =>
    simp only [splitDots]
    by_cases hc : c = '.'
    · simp [hc]
    · simp only [if_neg hc]
      cases h : splitDots cs <;> simp

theorem splitDots_no_dot {g : List Char} (hg : '.' ∉ g) : splitDots g = [g] := by
  induction g with
  | nil => simp [splitDots]
  | cons c cs ih =>
    have hc : c ≠ '.' := by
      intro h
      exact hg (h ▸ List.mem_cons_self c cs)
    have hcs : '.' ∉ cs := fun h => hg (List.mem_cons_of_mem c h)
    simp only [splitDots, if_neg hc, ih hcs]

theorem splitDots_append_dot {g : List Char} (hg : '.' ∉ g) (rest : List Char) :
    splitDots (g ++ '.' :: rest) = g :: splitDots rest := by
  induction g with
  | nil => simp [splitDots]
  | cons c cs ih =>
    have hc : c ≠ '.' := by
      intro h
      exact hg (h ▸ List.mem_cons_self c cs)
    have hcs : '.' ∉ cs := fun h => hg (List.mem_cons_of_mem c h)
    simp only [List.cons_append, splitDots, if_neg hc]
    simp only [List.append_eq]
    rw [ih hcs]

theorem natChars_no_dot (n : Nat) : '.' ∉ natChars n := by
  intro hmem
  obtain ⟨hall, _, _⟩ := natChars_spec n
  exact isDigitChar_ne_dot (List.all_eq_true.mp hall _ hmem) rfl

theorem splitDots_joinDots :
    ∀ (gs : List (List Char)), gs ≠ [] → (∀ g ∈ gs, '.' ∉ g) →
      splitDots (joinDots gs) = gs := by
  intro gs
  induction gs with
  | nil => intro h; exact absurd rfl h
  | cons g rest ih =>
    intro _ hnd
    cases rest with
    | nil =>
      simp only [joinDots]
      exact splitDots_no_dot (hnd g (List.mem_cons_self g []))
    | cons g2 rest2 =>
      have hjoin : joinDots (g :: g2 :: rest2) = g ++ '.' :: joinDots (g2 :: rest2) := rfl
      rw [hjoin, splitDots_append_dot (hnd g (List.mem_cons_self _ _))]
      rw [ih (by simp) (fun x hx => hnd x (List.mem_cons_of_mem g hx))]

theorem joinDots_head (g : List Char) (gs : List (List Char)) (hg : g ≠ []) :
    (joinDots (g :: gs)).head? = g.head? := by
  cases gs with
  | nil => rfl
  | cons g2 gs2 =>
    have hjoin : joinDots (g :: g2 :: gs2) = g ++ '.' :: joinDots (g2 :: gs2) := rfl
    rw [hjoin]
    cases g with
    | nil => exact absurd rfl hg
    | cons c cs => rfl

theorem mapM_parseDigits_natChars :
    ∀ (l : List Nat), (l.map natChars).mapM parseDigits = some l := by
  intro l
  induction l with
  | nil => rfl
  | cons n ns ih =>
    simp only [List.map_cons, List.mapM_cons, parseDigits_natChars, ih,
      Option.bind_eq_bind, Option.some_bind, Option.pure_def]

theorem padSegs_of_three {l : List Nat} (h : 3 ≤ l.length) : padSegs l = l := by
  simp [padSegs, Nat.sub_eq_zero_of_le h]

/-- `NewVersion` on a successful parse yields at least three segments and
keeps the original string verbatim. -/
theorem NewVersion_some {s : String} {v : GoVersion} (h : NewVersion s = some v) :
    3 ≤ v.segments.length ∧ v.original = s := by
  unfold NewVersion at h
  cases hm : ((splitDots (verCore s)).mapM parseDigits) with
  | none => rw [hm] at h; simp at h
  | some segs =>
    rw [hm] at h
    simp at h
    subst h
    constructor
    · simp [padSegs]
      omega
    · rfl

/-- Round trip: rendering a parsed version with `String()` and parsing it
again succeeds and reproduces the same segment list. -/
theorem NewVersion_verString {v : GoVersion} (hlen : 3 ≤ v.segments.length) :
    NewVersion (verString v) = some ⟨v.segments, verString v⟩ := by
  have hsegne : v.segments ≠ [] := by
    intro h
    rw [h] at hlen
    simp at hlen
  obtain ⟨s0, rest, hseg⟩ : ∃ s0 rest, v.segments = s0 :: rest := by
    cases hs : v.segments with
    | nil => exact absurd hs hsegne
    | cons a l => exact ⟨a, l, rfl⟩
  have hdata : (verString v).data = joinDots (v.segments.map natChars) := rfl
  have hhead : (verString v).data.head? = (natChars s0).head? := by
    rw [hdata, hseg, List.map_cons]
    exact joinDots_head _ _ (natChars_spec s0).2.1
  have hheadne : (verString v).data.head? ≠ some 'v' := by
    rw [hhead]
    cases hnc : natChars s0 with
    | nil => simp
    | cons c cs =>
      simp only [List.head?]
      intro hcv
      have hcd : isDigitChar c = true := by
        have := (natChars_spec s0).1
        rw [hnc] at this
        exact (List.all_eq_true.mp this c (List.mem_cons_self c cs))
      have : c = 'v' := by simpa using hcv
      exact isDigitChar_ne_v hcd this
  have hcore : verCore (verString v) = (verString v).data := by
    rw [verCore, if_neg hheadne]
  have hsplit : splitDots ((verString v).data) = v.segments.map natChars := by
    rw [hdata]
    apply splitDots_joinDots
    · simp [hsegne]
    · intro g hg
      obtain ⟨n, _, hn⟩ := List.mem_map.mp hg
      rw [← hn]
      exact natChars_no_dot n
  unfold NewVersion
  rw [hcore, hsplit, mapM_parseDigits_natChars]
  simp [padSegs_of_three hlen]

/-- Data model of `src/main.go` (JSON tags omitted). -/
structure Platform where
  platform : String
  minVersion : String
  maxVersion : String
  notes : String
deriving DecidableEq, Repr

structure RancherManagerVersion where
  supportedPlatforms : List Platform
deriving DecidableEq, Repr

structure UpgradePaths where
  rancherManager : List (String × RancherManagerVersion)
deriving DecidableEq, Repr

/-- Go map read `paths.RancherManager[k]`: the zero value (no supported
platforms) when the key is absent. -/
def UpgradePaths.get (paths : UpgradePaths) (k : String) : RancherManagerVersion :=
  match paths.rancherManager.find? (fun p => p.1 == k) with
  | some p => p.2
  | none => ⟨[]⟩

structure UpgradeStep where
  type : String
  platform : String
  «from» : String
  «to» : String
deriving DecidableEq, Repr

/-- Fuel for the synthesized-minor-version loop of
`getMinorVersionsBetween`.  The Go loop carries no bound; it stops as soon
as the synthesized `major.(minor+1).0` exceeds `maxVer`, which happens
within `minorOf maxVer + 2` iterations whenever the majors involved are
not below `maxVer`'s (in particular whenever `minVer > maxVer`, the case
the claims exercise).  On a cross-major range with
`minVer.major < maxVer.major` the Go loop would generate versions forever
(it never exceeds `maxVer`); the model truncates there. -/
def synthFuel (maxVer : GoVersion) : Nat := minorOf maxVer + 2

/-- The minor-version synthesis loop of `getMinorVersionsBetween`:
starting from `minVer`, repeatedly bump the minor component (patch reset
to `0`), re-parse `fmt.Sprintf("%d.%d.0", ...)`, stop once the result
exceeds `maxVer`. -/
def synthMinors (maxVer : GoVersion) : Nat → GoVersion → List GoVersion
  | 0, _ => []
  | fuel+1, currentVer =>
    if currentVer.segments.length < 2 then []
    else
      match NewVersion (String.mk (natChars (currentVer.segments.getD 0 0) ++
          '.' :: natChars (currentVer.segments.getD 1 0 + 1) ++ ['.', '0'])) with
      | none => []
      | some newVer =>
        if vlt maxVer newVer then []
        else newVer :: synthMinors maxVer fuel newVer

/-- `getMinorVersionsBetween` from `src/main.go`: the exact (re-parsed)
`minVersion`/`maxVersion` endpoint versions of the entry, followed by the
synthesized intermediate minor versions.  (In Go, when `minVersion` fails
to parse but `maxVersion` parses, the `Equal` call would dereference a nil
pointer; callers only reach this function after both strings parsed, so
the model keeps the parsed endpoint.) -/
def getMinorVersionsBetween (minVer maxVer : GoVersion) (platformData : Platform) :
    List GoVersion :=
  let base :=
    match NewVersion (cleanVersion platformData.minVersion) with
    | some minVerWithMeta =>
      match NewVersion (cleanVersion platformData.maxVersion) with
      | some maxVerWithMeta =>
        if verEq maxVerWithMeta minVerWithMeta then [minVerWithMeta]
        else [minVerWithMeta, maxVerWithMeta]
      | none => [minVerWithMeta]
    | none =>
      match NewVersion (cleanVersion platformData.maxVersion) with
      | some maxVerWithMeta => [maxVerWithMeta]
      | none => []
  base ++ synthMinors maxVer (synthFuel maxVer) minVer

/-- `versionInList` from `src/main.go` (`Equal` is comparison-based). -/
def versionInList (ver : GoVersion) (list : List GoVersion) : Bool :=
  list.any (fun v => decide (verEq v ver))

/-- One `versionSet[v.Original()] = v` Go map write: replace the value at
the key if present, otherwise append the binding.  (Go map iteration order
is unspecified; the model keeps insertion order, and the final sort makes
this choice irrelevant up to the relative order of `Compare`-equal
versions, which no property depends on.) -/
def setInsert (m : List (String × GoVersion)) (k : String) (v : GoVersion) :
    List (String × GoVersion) :=
  if m.any (fun p => p.1 == k) then
    m.map (fun p => if p.1 == k then (k, v) else p)
  else m ++ [(k, v)]

/-- `sort.Sort(version.Collection(...))`: sort ascending by `Compare`. -/
def vleSort (l : List GoVersion) : List GoVersion := List.insertionSort vle l

/-- The contribution of one `SupportedPlatforms` entry to the version set
of `getSortedK8sVersions`: skip on platform mismatch or a parse failure of
either range endpoint, otherwise insert every generated version keyed by
its `Original()` string. -/
def versionSetStep (platformLower : String) (m : List (String × GoVersion))
    (p : Platform) : List (String × GoVersion) :=
  if lowerStr p.platform == platformLower then
    match NewVersion (cleanVersion p.minVersion) with
    | none => m
    | some minVer =>
      match NewVersion (cleanVersion p.maxVersion) with
      | none => m
      | some maxVer =>
        (getMinorVersionsBetween minVer maxVer p).foldl
          (fun acc v => setInsert acc v.original v) m
  else m

/-- The `versionSet` map of `getSortedK8sVersions`, built over the
concatenated platform entries of both Rancher versions. -/
def versionSetFold (platformLower : String) (platforms : List Platform) :
    List (String × GoVersion) :=
  platforms.foldl (versionSetStep platformLower) []

/-- `getSortedK8sVersions` from `src/main.go`. -/
def getSortedK8sVersions (platform : String) (r1 r2 : RancherManagerVersion) :
    List GoVersion :=
  vleSort ((versionSetFold (lowerStr platform)
    (r1.supportedPlatforms ++ r2.supportedPlatforms)).map (fun p => p.2))

/-- The scanning loop of `findNextAcceptableK8sVersion`, with the Go
`candidate` accumulator: skip versions `≤ current` and versions with
fewer than two segments, stop at the first minor above the bound, record
acceptable versions, and stop at the first acceptable one when skipping
is not allowed. -/
def findLoop (currentVer : GoVersion) (maxAllowedMinor : Nat) (allowSkip : Bool) :
    List GoVersion → Option GoVersion → Option GoVersion
  | [], candidate => candidate
  | v :: vs, candidate =>
    if vle v currentVer then findLoop currentVer maxAllowedMinor allowSkip vs candidate
    else if v.segments.length < 2 then findLoop currentVer maxAllowedMinor allowSkip vs candidate
    else if maxAllowedMinor < v.segments.getD 1 0 then candidate
    else if allowSkip then findLoop currentVer maxAllowedMinor allowSkip vs (some v)
    else some v

/-- `findNextAcceptableK8sVersion` from `src/main.go`. -/
def findNextAcceptableK8sVersion (currentVer : GoVersion)
    (k8sVersions : List GoVersion) (allowSkip : Bool) : Option GoVersion :=
  if currentVer.segments.length < 2 then none
  else
    findLoop currentVer
      (currentVer.segments.getD 1 0 + (if allowSkip then 2 else 1))
      allowSkip k8sVersions none

/-- The `for { findNext; append; advance }` loop of
`GetAllowedK8sUpgrades`, as the list of successive `(from, to)` version
pairs, fuel-based; `stepChainAux_fuel` below shows the fuel used by
`stepChain` is never exhausted, so the model agrees with the unbounded
Go loop. -/
def stepChainAux (k8sVersions : List GoVersion) (allowSkip : Bool) :
    Nat → GoVersion → List (GoVersion × GoVersion)
  | 0, _ => []
  | fuel+1, currentVer =>
    match findNextAcceptableK8sVersion currentVer k8sVersions allowSkip with
    | none => []
    | some nextVer =>
      (currentVer, nextVer) :: stepChainAux k8sVersions allowSkip fuel nextVer

def stepChain (currentVer : GoVersion) (k8sVersions : List GoVersion)
    (allowSkip : Bool) : List (GoVersion × GoVersion) :=
  stepChainAux k8sVersions allowSkip (k8sVersions.length + 1) currentVer

/-- Ensure the current version is in the candidate list (append and
re-sort when absent), as `GetAllowedK8sUpgrades` does before stepping. -/
def augmentedList (currentVer : GoVersion) (k8sVersions : List GoVersion) :
    List GoVersion :=
  if versionInList currentVer k8sVersions then k8sVersions
  else vleSort (k8sVersions ++ [currentVer])

/-- `GetAllowedK8sUpgrades` from `src/main.go`. -/
def GetAllowedK8sUpgrades (currentK8s platform : String)
    (r1 r2 : RancherManagerVersion) : List UpgradeStep :=
  match parseK8sVersion currentK8s with
  | none => []
  | some currentVer =>
    (stepChain currentVer
      (augmentedList currentVer (getSortedK8sVersions platform r1 r2))
      (platform == "rke1" || platform == "rke2" || platform == "k3s")).map
      (fun q => UpgradeStep.mk "Kubernetes" platform
        ("v" ++ q.1.original) ("v" ++ q.2.original))

/-- The key-version filter of `GetKeyVersions`. -/
def keyVersionPred (v : String) : Bool :=
  hasSuffixStr v ".9" || v == "2.7.5" || v == "2.8.8" || v == "2.9.2"

/-- The parsed, sorted key versions built inside `GetKeyVersions`. -/
def GetKeyVersionsV (versions : List String) : List GoVersion :=
  vleSort (versions.filterMap (fun v =>
    if keyVersionPred v then NewVersion v else none))

/-- `GetKeyVersions` from `src/main.go`. -/
def GetKeyVersions (versions : List String) : List String :=
  (GetKeyVersionsV versions).map verString

/-- The loop body of `PlanUpgrade` over the key versions, carrying the
current Rancher string, its parsed version, and the current Kubernetes
string. -/
def planLoop (platformLower : String) (paths : UpgradePaths) :
    List String → String → GoVersion → String → Except String (List UpgradeStep)
  | [], _, _, _ => Except.ok []
  | v :: rest, currentRancher, currentRancherVersion, currentK8s =>
    match NewVersion v with
    | none => Except.error "invalid version in key versions"
    | some nextVersion =>
      if vlt currentRancherVersion nextVersion then
        match planLoop platformLower paths rest v nextVersion
            ((GetAllowedK8sUpgrades currentK8s platformLower
                (paths.get currentRancher) (paths.get v)).foldl
              (fun _ u => u.«to») currentK8s) with
        | Except.ok steps =>
          Except.ok (UpgradeStep.mk "Rancher" "" currentRancher v ::
            GetAllowedK8sUpgrades currentK8s platformLower
              (paths.get currentRancher) (paths.get v) ++ steps)
        | Except.error e => Except.error e
      else planLoop platformLower paths rest currentRancher currentRancherVersion currentK8s

/-- `PlanUpgrade` from `src/main.go` (error messages abbreviated to their
fixed prefixes). -/
def PlanUpgrade (currentRancher currentK8s platform : String)
    (versions : List String) (paths : UpgradePaths) :
    Except String (List UpgradeStep) :=
  match NewVersion currentRancher with
  | none => Except.error "invalid current Rancher version"
  | some currentRancherVersion =>
    planLoop (lowerStr platform) paths (GetKeyVersions versions)
      currentRancher currentRancherVersion currentK8s

/-! ### Properties of the skip-policy stepper -/

theorem findLoop_some_cases (currentVer : GoVersion) (maxM : Nat) (s : Bool) :
    ∀ (list : List GoVersion) (cand : Option GoVersion) (res : GoVersion),
      findLoop currentVer maxM s list cand = some res →
      cand = some res ∨
        (res ∈ list ∧ vlt currentVer res ∧ 2 ≤ res.segments.length ∧
          res.segments.getD 1 0 ≤ maxM) := by
  intro list
  induction list with
  | nil =>
    intro cand res h
    exact Or.inl h
  | cons v vs ih =>
    intro cand res h
    rw [findLoop] at h
    by_cases h1 : vle v currentVer
    · rw [if_pos h1] at h
      rcases ih cand res h with hc | hp
      · exact Or.inl hc
      · exact Or.inr ⟨List.mem_cons_of_mem v hp.1, hp.2⟩
    · rw [if_neg h1] at h
      by_cases h2 : v.segments.length < 2
      · rw [if_pos h2] at h
        rcases ih cand res h with hc | hp
        · exact Or.inl hc
        · exact Or.inr ⟨List.mem_cons_of_mem v hp.1, hp.2⟩
      · rw [if_neg h2] at h
        by_cases h3 : maxM < v.segments.getD 1 0
        · rw [if_pos h3] at h
          exact Or.inl h
        · rw [if_neg h3] at h
          by_cases h4 : s = true
          · rw [if_pos h4] at h
            rcases ih (some v) res h with hc | hp
            · have hv : v = res := by injection hc
              subst hv
              exact Or.inr ⟨List.mem_cons_self v vs, vlt_of_not_vle h1, by omega, by omega⟩
            · exact Or.inr ⟨List.mem_cons_of_mem v hp.1, hp.2⟩
          · rw [if_neg h4] at h
            have hv : v = res := by injection h
            subst hv
            exact Or.inr ⟨List.mem_cons_self v vs, vlt_of_not_vle h1, by omega, by omega⟩

/-- A successful `findNextAcceptableK8sVersion` returns a list element that
is strictly greater than the current version and whose minor component is
within the platform's allowed window. -/
theorem findNext_some {currentVer : GoVersion} {list : List GoVersion}
    {s : Bool} {res : GoVersion}
    (h : findNextAcceptableK8sVersion currentVer list s = some res) :
    res ∈ list ∧ vlt currentVer res ∧
      minorOf res ≤ minorOf currentVer + (if s then 2 else 1) := by
  rw [findNextAcceptableK8sVersion] at h
  by_cases hlen : currentVer.segments.length < 2
  · rw [if_pos hlen] at h; simp at h
  · rw [if_neg hlen] at h
    rcases findLoop_some_cases currentVer _ s list none res h with hc | hp
    · simp at hc
    · exact ⟨hp.1, hp.2.1, hp.2.2.2⟩

theorem length_filter_le_of_imp {α : Type} (p q : α → Bool)
    (mono : ∀ a, p a = true → q a = true) :
    ∀ l : List α, (l.filter p).length ≤ (l.filter q).length := by
  intro l
  induction l with
  | nil => simp
  | cons a l ih =>
    by_cases hp : p a = true
    · rw [List.filter_cons_of_pos hp, List.filter_cons_of_pos (mono a hp)]
      simpa using ih
    · rw [List.filter_cons_of_neg (by simpa using hp)]
      by_cases hq : q a = true
      · rw [List.filter_cons_of_pos hq]
        exact Nat.le_succ_of_le ih
      · rw [List.filter_cons_of_neg (by simpa using hq)]
        exact ih

theorem length_filter_lt_of_imp {α : Type} (p q : α → Bool)
    (mono : ∀ a, p a = true → q a = true) (w : α) (hq : q w = true)
    (hp : ¬ p w = true) :
    ∀ l : List α, w ∈ l → (l.filter p).length < (l.filter q).length := by
  intro l
  induction l with
  | nil => intro h; simp at h
  | cons a l ih =>
    intro hmem
    rcases List.mem_cons.mp hmem with ha | ha
    · subst ha
      rw [List.filter_cons_of_neg (by simpa using hp), List.filter_cons_of_pos hq]
      exact Nat.lt_succ_of_le (length_filter_le_of_imp p q mono l)
    · by_cases hpa : p a = true
      · rw [List.filter_cons_of_pos hpa, List.filter_cons_of_pos (mono a hpa)]
        simpa using ih ha
      · rw [List.filter_cons_of_neg (by simpa using hpa)]
        by_cases hqa : q a = true
        · rw [List.filter_cons_of_pos hqa]
          exact Nat.lt_succ_of_lt (ih ha)
        · rw [List.filter_cons_of_neg (by simpa using hqa)]
          exact ih ha

/-- Count of candidates strictly above the current version: the variant of
the stepper loop. -/
def gtCount (cur : GoVersion) (list : List GoVersion) : Nat :=
  (list.filter (fun v => decide (vlt cur v))).length

theorem gtCount_decreases {cur w : GoVersion} {list : List GoVersion}
    (hmem : w ∈ list) (hlt : vlt cur w) :
    gtCount w list < gtCount cur list := by
  apply length_filter_lt_of_imp _ _ _ w _ _ list hmem
  · intro a ha
    simp at ha ⊢
    exact vlt_trans hlt ha
  · simpa using hlt
  · simp [vlt_irrefl]

/-- With fuel above the variant, the stepper chain does not depend on the
fuel: the Go loop terminates and the model computes its limit. -/
theorem stepChainAux_fuel (list : List GoVersion) (s : Bool) :
    ∀ (f1 f2 : Nat) (cur : GoVersion), gtCount cur list < f1 →
      gtCount cur list < f2 →
      stepChainAux list s f1 cur = stepChainAux list s f2 cur := by
  intro f1
  induction f1 with
  | zero => intro f2 cur h1 _; omega
  | succ f1 ih =>
    intro f2 cur h1 h2
    cases f2 with
    | zero => omega
    | succ f2 =>
      rw [stepChainAux, stepChainAux]
      cases hn : findNextAcceptableK8sVersion cur list s with
      | none => rfl
      | some w =>
        obtain ⟨hmem, hlt, _⟩ := findNext_some hn
        have hdec := gtCount_decreases hmem hlt
        show (cur, w) :: stepChainAux list s f1 w = (cur, w) :: stepChainAux list s f2 w
        rw [ih f2 w (by omega) (by omega)]

theorem stepChainAux_length (list : List GoVersion) (s : Bool) :
    ∀ (f : Nat) (cur : GoVersion),
      (stepChainAux list s f cur).length ≤ gtCount cur list := by
  intro f
  induction f with
  | zero => intro cur; simp [stepChainAux]
  | succ f ih =>
    intro cur
    rw [stepChainAux]
    cases hn : findNextAcceptableK8sVersion cur list s with
    | none => simp
    | some w =>
      obtain ⟨hmem, hlt, _⟩ := findNext_some hn
      have hdec := gtCount_decreases hmem hlt
      have := ih w
      show ((cur, w) :: stepChainAux list s f w).length ≤ gtCount cur list
      simp only [List.length_cons]
      omega

theorem stepChainAux_chain (list : List GoVersion) (s : Bool) :
    ∀ (f : Nat) (cur : GoVersion),
      List.Chain vlt cur ((stepChainAux list s f cur).map (fun q => q.2)) := by
  intro f
  induction f with
  | zero => intro cur; simp [stepChainAux]
  | succ f ih =>
    intro cur
    rw [stepChainAux]
    cases hn : findNextAcceptableK8sVersion cur list s with
    | none => simp
    | some w =>
      obtain ⟨_, hlt, _⟩ := findNext_some hn
      show List.Chain vlt cur (((cur, w) :: stepChainAux list s f w).map (fun q => q.2))
      simpa using List.Chain.cons hlt (ih w)

/-- Every element of the parsed key-version list comes from a successful
`NewVersion` parse. -/
theorem GetKeyVersionsV_mem {vs : List String} {u : GoVersion}
    (h : u ∈ GetKeyVersionsV vs) : ∃ s, NewVersion s = some u := by
  rw [GetKeyVersionsV] at h
  have h' : u ∈ vs.filterMap (fun v =>
      if keyVersionPred v then NewVersion v else none) :=
    (List.perm_insertionSort vle _).mem_iff.mp h
  obtain ⟨a, _, ha⟩ := List.mem_filterMap.mp h'
  by_cases hk : keyVersionPred a = true
  · rw [if_pos hk] at ha
    exact ⟨a, ha⟩
  · rw [if_neg hk] at ha
    simp at ha

/-- Every string in `GetKeyVersions`' output parses back to a version with
the same rendering (so the planner's checkpoint-parse error branch can
never fire). -/
theorem GetKeyVersions_roundtrip {vs : List String} {v : String}
    (h : v ∈ GetKeyVersions vs) :
    ∃ w, NewVersion v = some w ∧ verString w = v ∧ 3 ≤ w.segments.length := by
  rw [GetKeyVersions] at h
  obtain ⟨u, hu, huv⟩ := List.mem_map.mp h
  obtain ⟨s, hs⟩ := GetKeyVersionsV_mem hu
  have hlen : 3 ≤ u.segments.length := (NewVersion_some hs).1
  refine ⟨⟨u.segments, verString u⟩, ?_, ?_, hlen⟩
  · rw [← huv]
    exact NewVersion_verString hlen
  · rw [← huv]
    rfl

theorem stepChainAux_pairs (list : List GoVersion) (s : Bool) :
    ∀ (f : Nat) (cur : GoVersion) (q : GoVersion × GoVersion),
      q ∈ stepChainAux list s f cur →
      findNextAcceptableK8sVersion q.1 list s = some q.2 := by
  intro f
  induction f with
  | zero => intro cur q h; simp [stepChainAux] at h
  | succ f ih =>
    intro cur q h
    rw [stepChainAux] at h
    revert h
    cases hn : findNextAcceptableK8sVersion cur list s with
    | none => intro h; simp at h
    | some w =>
      intro h
      rcases List.mem_cons.mp h with hq | hq
      · subst hq; exact hn
      · exact ih w q hq

/-- A successful `NewVersion` result re-parses from its own original
string to itself: the segments of any parsed version are determined by its
`original` spelling. -/
theorem NewVersion_original {s : String} {v : GoVersion}
    (h : NewVersion s = some v) : NewVersion v.original = some v := by
  rw [(NewVersion_some h).2]
  exact h

/-- Every synthesized minor version is a `NewVersion` output, hence
re-parses from its own original string. -/
theorem synthMinors_originals (maxVer : GoVersion) :
    ∀ (fuel : Nat) (cur : GoVersion), ∀ v ∈ synthMinors maxVer fuel cur,
      NewVersion v.original = some v := by
  intro fuel
  induction fuel with
  | zero => intro cur v hv; simp [synthMinors] at hv
  | succ fuel ih =>
    intro cur v hv
    rw [synthMinors] at hv
    by_cases hlen : cur.segments.length < 2
    · rw [if_pos hlen] at hv; simp at hv
    · rw [if_neg hlen] at hv
      revert hv
      cases hn : NewVersion (String.mk (natChars (cur.segments.getD 0 0) ++
          '.' :: natChars (cur.segments.getD 1 0 + 1) ++ ['.', '0'])) with
      | none => intro hv; simp at hv
      | some newVer =>
        intro hv
        have hv' : v ∈ (if vlt maxVer newVer then ([] : List GoVersion)
            else newVer :: synthMinors maxVer fuel newVer) := hv
        by_cases hgt : vlt maxVer newVer
        · rw [if_pos hgt] at hv'; simp at hv'
        · rw [if_neg hgt] at hv'
          rcases List.mem_cons.mp hv' with h | h
          · subst h; exact NewVersion_original hn
          · exact ih newVer v h

/-- Every version contributed by `getMinorVersionsBetween` — the re-parsed
endpoints as well as the synthesized intermediates — re-parses from its
own original string. -/
theorem getMinorVersionsBetween_originals (minVer maxVer : GoVersion)
    (p : Platform) :
    ∀ v ∈ getMinorVersionsBetween minVer maxVer p,
      NewVersion v.original = some v := by
  intro v hv
  rcases List.mem_append.mp hv with hb | hs
  · revert hb
    cases hmin : NewVersion (cleanVersion p.minVersion) with
    | none =>
      cases hmax : NewVersion (cleanVersion p.maxVersion) with
      | none => intro hb; simp at hb
      | some maxV =>
        intro hb
        have hvm : v = maxV := by simpa using hb
        subst hvm
        exact NewVersion_original hmax
    | some minV =>
      cases hmax : NewVersion (cleanVersion p.maxVersion) with
      | none =>
        intro hb
        have hvm : v = minV := by simpa using hb
        subst hvm
        exact NewVersion_original hmin
      | some maxV =>
        intro hb
        have hb' : v ∈ (if verEq maxV minV then [minV] else [minV, maxV]) := hb
        by_cases heq : verEq maxV minV
        · rw [if_pos heq] at hb'
          have hvm : v = minV := by simpa using hb'
          subst hvm
          exact NewVersion_original hmin
        · rw [if_neg heq] at hb'
          rcases List.mem_cons.mp hb' with h | h
          · subst h; exact NewVersion_original hmin
          · have hvm : v = maxV := by simpa using h
            subst hvm
            exact NewVersion_original hmax
  · exact synthMinors_originals maxVer _ minVer v hs

/-- A value present after a `setInsert` was already a value of the map or
is the inserted value. -/
theorem setInsert_values {m : List (String × GoVersion)} {k : String}
    {v w : GoVersion} (h : w ∈ (setInsert m k v).map (fun p => p.2)) :
    w ∈ m.map (fun p => p.2) ∨ w = v := by
  obtain ⟨q, hq, hqw⟩ := List.mem_map.mp h
  subst hqw
  rw [setInsert] at hq
  by_cases hany : m.any (fun p => p.1 == k) = true
  · rw [if_pos hany] at hq
    obtain ⟨p', hp, hpq⟩ := List.mem_map.mp hq
    by_cases hpk : (p'.1 == k) = true
    · rw [if_pos hpk] at hpq
      right; rw [← hpq]
    · rw [if_neg hpk] at hpq
      subst hpq
      left; exact List.mem_map.mpr ⟨p', hp, rfl⟩
  · rw [if_neg hany] at hq
    rcases List.mem_append.mp hq with h1 | h1
    · left; exact List.mem_map.mpr ⟨q, h1, rfl⟩
    · have hqkv : q = (k, v) := by simpa using h1
      right; rw [hqkv]

/-- A value present after folding `setInsert` over a version list was a
value of the initial map or an element of the list. -/
theorem foldl_setInsert_values (l : List GoVersion) :
    ∀ (m : List (String × GoVersion)) (w : GoVersion),
      w ∈ (l.foldl (fun acc v => setInsert acc v.original v) m).map
        (fun p => p.2) →
      w ∈ m.map (fun p => p.2) ∨ w ∈ l := by
  induction l with
  | nil => intro m w h; exact Or.inl h
  | cons v l ih =>
    intro m w h
    rcases ih (setInsert m v.original v) w h with h1 | h1
    · rcases setInsert_values h1 with h2 | h2
      · exact Or.inl h2
      · exact Or.inr (by rw [h2]; exact List.mem_cons_self v l)
    · exact Or.inr (List.mem_cons_of_mem v h1)

/-- A value present after one `versionSetStep` was a value of the map or
re-parses from its own original string. -/
theorem versionSetStep_values {platformLower : String}
    {m : List (String × GoVersion)} {p : Platform} {w : GoVersion}
    (h : w ∈ (versionSetStep platformLower m p).map (fun q => q.2)) :
    w ∈ m.map (fun q => q.2) ∨ NewVersion w.original = some w := by
  revert h
  rw [versionSetStep]
  by_cases hmatch : (lowerStr p.platform == platformLower) = true
  · rw [if_pos hmatch]
    cases hmin : NewVersion (cleanVersion p.minVersion) with
    | none => intro h; exact Or.inl h
    | some minVer =>
      cases hmax : NewVersion (cleanVersion p.maxVersion) with
      | none => intro h; exact Or.inl h
      | some maxVer =>
        intro h
        rcases foldl_setInsert_values _ m w h with h1 | h1
        · exact Or.inl h1
        · exact Or.inr (getMinorVersionsBetween_originals minVer maxVer p w h1)
  · rw [if_neg hmatch]
    intro h
    exact Or.inl h

/-- Every value of the `versionSet` map re-parses from its own original
string. -/
theorem versionSetFold_values (platformLower : String)
    (platforms : List Platform) :
    ∀ w ∈ (versionSetFold platformLower platforms).map (fun p => p.2),
      NewVersion w.original = some w := by
  rw [versionSetFold]
  have hgen : ∀ (l : List Platform) (m : List (String × GoVersion)),
      (∀ w ∈ m.map (fun p => p.2), NewVersion w.original = some w) →
      ∀ w ∈ (l.foldl (versionSetStep platformLower) m).map (fun p => p.2),
        NewVersion w.original = some w := by
    intro l
    induction l with
    | nil => intro m hm w hw; exact hm w hw
    | cons p l ih =>
      intro m hm w hw
      refine ih (versionSetStep platformLower m p) ?_ w hw
      intro u hu
      rcases versionSetStep_values hu with h1 | h1
      · exact hm u h1
      · exact h1
  exact hgen platforms [] (by simp)

/-- Every candidate produced by `getSortedK8sVersions` re-parses from its
own original string. -/
theorem getSorted_originals {platform : String} {r1 r2 : RancherManagerVersion}
    {w : GoVersion} (h : w ∈ getSortedK8sVersions platform r1 r2) :
    NewVersion w.original = some w := by
  rw [getSortedK8sVersions] at h
  have h' := (List.perm_insertionSort vle _).mem_iff.mp h
  exact versionSetFold_values (lowerStr platform) _ w h'

/-- An element of the augmented candidate list is a candidate or the
current version itself. -/
theorem augmentedList_mem {cv : GoVersion} {l : List GoVersion} {w : GoVersion}
    (h : w ∈ augmentedList cv l) : w ∈ l ∨ w = cv := by
  rw [augmentedList] at h
  by_cases hin : versionInList cv l = true
  · rw [if_pos hin] at h
    exact Or.inl h
  · rw [if_neg hin] at h
    have h' := (List.perm_insertionSort vle _).mem_iff.mp h
    rcases List.mem_append.mp h' with h1 | h1
    · exact Or.inl h1
    · exact Or.inr (by simpa using h1)

/-- When the start version and every candidate re-parse from their own
original strings, so do both components of every pair of the stepper
chain. -/
theorem stepChainAux_originals (list : List GoVersion) (s : Bool)
    (hlist : ∀ v ∈ list, NewVersion v.original = some v) :
    ∀ (f : Nat) (cur : GoVersion), NewVersion cur.original = some cur →
      ∀ q ∈ stepChainAux list s f cur,
        NewVersion q.1.original = some q.1 ∧
          NewVersion q.2.original = some q.2 := by
  intro f
  induction f with
  | zero => intro cur _ q hq; simp [stepChainAux] at hq
  | succ f ih =>
    intro cur hcur q hq
    rw [stepChainAux] at hq
    revert hq
    cases hn : findNextAcceptableK8sVersion cur list s with
    | none => intro hq; simp at hq
    | some w =>
      intro hq
      have hw : NewVersion w.original = some w := hlist w (findNext_some hn).1
      rcases List.mem_cons.mp hq with h | h
      · subst h; exact ⟨hcur, hw⟩
      · exact ih w hw q h

/-- Every step emitted by `GetAllowedK8sUpgrades` is a Kubernetes step
whose underlying versions — pinned as the parses of the step's own
version strings — satisfy the strict-increase and minor-window
constraints of the stepper. -/
theorem getAllowed_step (currentK8s platform : String)
    (r1 r2 : RancherManagerVersion) :
    ∀ st ∈ GetAllowedK8sUpgrades currentK8s platform r1 r2,
      st.type = "Kubernetes" ∧ st.platform = platform ∧
      ∃ u w : GoVersion, st.«from» = "v" ++ u.original ∧
        st.«to» = "v" ++ w.original ∧
        NewVersion u.original = some u ∧ NewVersion w.original = some w ∧
        vlt u w ∧
        minorOf w ≤ minorOf u +
          (if platform == "rke1" || platform == "rke2" || platform == "k3s"
            then 2 else 1) := by
  intro st hst
  rw [GetAllowedK8sUpgrades] at hst
  revert hst
  cases hp : parseK8sVersion currentK8s with
  | none => intro hst; simp at hst
  | some cv =>
    intro hst
    obtain ⟨q, hq, hmap⟩ := List.mem_map.mp hst
    have hpair := stepChainAux_pairs _ _ _ _ q hq
    obtain ⟨_, hlt, hbound⟩ := findNext_some hpair
    have hcv : NewVersion cv.original = some cv := NewVersion_original hp
    have hlist : ∀ v ∈ augmentedList cv (getSortedK8sVersions platform r1 r2),
        NewVersion v.original = some v := by
      intro v hv
      rcases augmentedList_mem hv with h1 | h1
      · exact getSorted_originals h1
      · subst h1; exact hcv
    have hwf := stepChainAux_originals _ _ hlist _ cv hcv q hq
    subst hmap
    exact ⟨rfl, rfl, q.1, q.2, rfl, rfl, hwf.1, hwf.2, hlt, hbound⟩

theorem getAllowed_unparsable {currentK8s : String} (platform : String)
    (r1 r2 : RancherManagerVersion) (h : parseK8sVersion currentK8s = none) :
    GetAllowedK8sUpgrades currentK8s platform r1 r2 = [] := by
  rw [GetAllowedK8sUpgrades, h]

/-- The ManagementUpgrade steps `planLoop` emits, computed directly from
the key-version selection walk (independent of the Kubernetes state). -/
def rancherStepsOf : List String → String → GoVersion → List UpgradeStep
  | [], _, _ => []
  | v :: rest, currentRancher, cur =>
    match NewVersion v with
    | none => []
    | some nv =>
      if vlt cur nv then
        UpgradeStep.mk "Rancher" "" currentRancher v :: rancherStepsOf rest v nv
      else rancherStepsOf rest currentRancher cur

/-- When every key version parses, `planLoop` succeeds; its Rancher steps
are exactly the selection walk (whatever the Kubernetes input), and every
other step comes out of some `GetAllowedK8sUpgrades` call for the given
platform. -/
theorem planLoop_ok (pl : String) (paths : UpgradePaths) :
    ∀ (kvs : List String) (curR : String) (curV : GoVersion) (curK : String),
      (∀ v ∈ kvs, (NewVersion v).isSome = true) →
      ∃ steps, planLoop pl paths kvs curR curV curK = Except.ok steps ∧
        steps.filter (fun s => s.type == "Rancher") = rancherStepsOf kvs curR curV ∧
        ∀ st ∈ steps, st.type = "Rancher" ∨
          ∃ k r1 r2, st ∈ GetAllowedK8sUpgrades k pl r1 r2 := by
  intro kvs
  induction kvs with
  | nil =>
    intro curR curV curK _
    exact ⟨[], rfl, rfl, by simp⟩
  | cons v rest ih =>
    intro curR curV curK hparse
    obtain ⟨nv, hnv⟩ := Option.isSome_iff_exists.mp
      (hparse v (List.mem_cons_self v rest))
    simp only [planLoop, rancherStepsOf, hnv]
    by_cases hlt : vlt curV nv
    · rw [if_pos hlt, if_pos hlt]
      obtain ⟨steps', hok', hfil', hall'⟩ := ih v nv
        ((GetAllowedK8sUpgrades curK pl (paths.get curR) (paths.get v)).foldl
          (fun _ u => u.«to») curK)
        (fun u hu => hparse u (List.mem_cons_of_mem v hu))
      rw [hok']
      refine ⟨_, rfl, ?_, ?_⟩
      · rw [List.cons_append, List.filter_cons_of_pos (by simp), List.filter_append]
        have hknil : (GetAllowedK8sUpgrades curK pl (paths.get curR)
            (paths.get v)).filter (fun s => s.type == "Rancher") = [] := by
          rw [List.filter_eq_nil_iff]
          intro a ha
          have := (getAllowed_step _ _ _ _ a ha).1
          simp [this]
        rw [hknil, hfil']
        rfl
      · intro st hst
        rw [List.cons_append] at hst
        rcases List.mem_cons.mp hst with h1 | h1
        · subst h1; exact Or.inl rfl
        · rcases List.mem_append.mp h1 with h2 | h2
          · exact Or.inr ⟨curK, paths.get curR, paths.get v, h2⟩
          · exact hall' st h2
    · rw [if_neg hlt, if_neg hlt]
      exact ih curR curV curK (fun u hu => hparse u (List.mem_cons_of_mem v hu))

/-- With an unparsable Kubernetes version, `planLoop` emits exactly the
Rancher selection walk: every transition contributes zero runtime steps
and the Kubernetes state never changes. -/
theorem planLoop_noK8s (pl : String) (paths : UpgradePaths) :
    ∀ (kvs : List String) (curR : String) (curV : GoVersion) (curK : String),
      (∀ v ∈ kvs, (NewVersion v).isSome = true) →
      parseK8sVersion curK = none →
      planLoop pl paths kvs curR curV curK =
        Except.ok (rancherStepsOf kvs curR curV) := by
  intro kvs
  induction kvs with
  | nil => intro curR curV curK _ _; rfl
  | cons v rest ih =>
    intro curR curV curK hparse hk
    obtain ⟨nv, hnv⟩ := Option.isSome_iff_exists.mp
      (hparse v (List.mem_cons_self v rest))
    simp only [planLoop, rancherStepsOf, hnv]
    have hknil := getAllowed_unparsable pl (paths.get curR) (paths.get v) hk
    by_cases hlt : vlt curV nv
    · rw [if_pos hlt, if_pos hlt, hknil]
      simp only [List.foldl_nil]
      rw [ih v nv curK (fun u hu => hparse u (List.mem_cons_of_mem v hu)) hk]
      rfl
    · rw [if_neg hlt, if_neg hlt]
      exact ih curR curV curK (fun u hu => hparse u (List.mem_cons_of_mem v hu)) hk

theorem rancherStepsOf_types :
    ∀ (kvs : List String) (curR : String) (cur : GoVersion),
      ∀ st ∈ rancherStepsOf kvs curR cur, st.type = "Rancher" := by
  intro kvs
  induction kvs with
  | nil => intro curR cur st hst; simp [rancherStepsOf] at hst
  | cons v rest ih =>
    intro curR cur st hst
    rw [rancherStepsOf] at hst
    cases hnv : NewVersion v with
    | none => rw [hnv] at hst; simp at hst
    | some nv =>
      rw [hnv] at hst
      have hst' : st ∈ (if vlt cur nv then
          UpgradeStep.mk "Rancher" "" curR v :: rancherStepsOf rest v nv
        else rancherStepsOf rest curR cur) := hst
      by_cases hlt : vlt cur nv
      · rw [if_pos hlt] at hst'
        rcases List.mem_cons.mp hst' with h1 | h1
        · subst h1; rfl
        · exact ih v nv st h1
      · rw [if_neg hlt] at hst'
        exact ih curR cur st hst'

theorem GetKeyVersions_parse {versions : List String} :
    ∀ v ∈ GetKeyVersions versions, (NewVersion v).isSome = true := by
  intro v hv
  obtain ⟨w, hw, _, _⟩ := GetKeyVersions_roundtrip hv
  rw [hw]
  rfl

/-! ### Claim theorems: C2, C6, C7, C10 -/

/-- **C2**: every RuntimeUpgrade (type `"Kubernetes"`) step emitted within
one management-version transition of a successful `PlanUpgrade` goes from
version `u` to a strictly greater version `w`, with `w`'s minor component
at most `S` above `u`'s, where `S = 2` exactly when the lower-cased
platform identifier is `rke1`, `rke2` or `k3s`, and `S = 1` otherwise.
The versions `u` and `w` are pinned as the parses of the step's own
`from`/`to` strings: `NewVersion u.original = some u` forces `u.segments`
to be the parse of `u.original`, which is `st.from` without its leading
`v` (and likewise for `w`), so the ordering and minor-bound facts are
about the step's actual version strings. -/
theorem C2_runtime_step_bounds {currentRancher currentK8s platform : String}
    {versions : List String} {paths : UpgradePaths} {steps : List UpgradeStep}
    (hok : PlanUpgrade currentRancher currentK8s platform versions paths =
      Except.ok steps) :
    ∀ st ∈ steps, st.type = "Kubernetes" →
      ∃ u w : GoVersion, st.«from» = "v" ++ u.original ∧
        st.«to» = "v" ++ w.original ∧
        NewVersion u.original = some u ∧ NewVersion w.original = some w ∧
        vlt u w ∧
        minorOf w ≤ minorOf u +
          (if lowerStr platform == "rke1" || lowerStr platform == "rke2" ||
              lowerStr platform == "k3s" then 2 else 1) := by
  rw [PlanUpgrade] at hok
  revert hok
  cases hr : NewVersion currentRancher with
  | none => intro hok; exact Except.noConfusion hok
  | some rv =>
    intro hok
    have hok2 : planLoop (lowerStr platform) paths (GetKeyVersions versions)
        currentRancher rv currentK8s = Except.ok steps := hok
    obtain ⟨steps'', hok'', _, hall⟩ := planLoop_ok (lowerStr platform) paths
      (GetKeyVersions versions) currentRancher rv currentK8s GetKeyVersions_parse
    rw [hok''] at hok2
    have hsteps : steps'' = steps := by injection hok2
    subst hsteps
    intro st hst htype
    rcases hall st hst with h1 | ⟨k, r1, r2, hmem⟩
    · rw [htype] at h1
      simp at h1
    · obtain ⟨_, _, u, w, h3, h4, hu, hw, h5, h6⟩ :=
        getAllowed_step k (lowerStr platform) r1 r2 st hmem
      exact ⟨u, w, h3, h4, hu, hw, h5, h6⟩

/-- Witness for C2 on a concrete plan with one runtime step
(`2.8.0`/`1.24.0` on rke2, checkpoint `2.8.9` supporting 1.24.0–1.26.0). -/
theorem C2_runtime_step_bounds_witness :
    ∃ u w : GoVersion, "v1.24.0" = "v" ++ u.original ∧
      "v1.26.0" = "v" ++ w.original ∧
      NewVersion u.original = some u ∧ NewVersion w.original = some w ∧
      vlt u w ∧
      minorOf w ≤ minorOf u +
        (if lowerStr "RKE2" == "rke1" || lowerStr "RKE2" == "rke2" ||
            lowerStr "RKE2" == "k3s" then 2 else 1) :=
  @C2_runtime_step_bounds "2.8.0" "1.24.0" "RKE2" ["2.8.9"]
    ⟨[("2.8.9", ⟨[⟨"rke2", "1.24.0", "1.26.0", ""⟩]⟩)]⟩
    [UpgradeStep.mk "Rancher" "" "2.8.0" "2.8.9",
      UpgradeStep.mk "Kubernetes" "rke2" "v1.24.0" "v1.26.0"]
    (by rfl)
    (UpgradeStep.mk "Kubernetes" "rke2" "v1.24.0" "v1.26.0")
    (by decide) rfl

/-- **C6**: an unparsable current management version makes `PlanUpgrade`
return an error rather than a plan.  The claim's second condition — a
checkpoint string from the known-version list failing to parse — can never
occur: `GetKeyVersions` emits only renderings of successfully parsed
versions, so that part of the claim holds vacuously (the corresponding
error branch of `PlanUpgrade` is unreachable). -/
theorem C6_unparsable_management_errors
    (currentRancher currentK8s platform : String) (versions : List String)
    (paths : UpgradePaths) :
    (NewVersion currentRancher = none →
      PlanUpgrade currentRancher currentK8s platform versions paths =
        Except.error "invalid current Rancher version") ∧
    ∀ v ∈ GetKeyVersions versions, (NewVersion v).isSome = true := by
  constructor
  · intro h
    rw [PlanUpgrade, h]
  · exact GetKeyVersions_parse

/-- Witness for C6 at the unparsable management version `"abc"`. -/
theorem C6_unparsable_management_errors_witness :
    PlanUpgrade "abc" "1.24.0" "rke2" ["2.8.9"] ⟨[]⟩ =
      Except.error "invalid current Rancher version" ∧
    ∀ v ∈ GetKeyVersions ["2.8.9"], (NewVersion v).isSome = true :=
  ⟨(C6_unparsable_management_errors "abc" "1.24.0" "rke2" ["2.8.9"] ⟨[]⟩).1
      (by decide),
    (C6_unparsable_management_errors "abc" "1.24.0" "rke2" ["2.8.9"] ⟨[]⟩).2⟩

/-- **C7**: when the current runtime version fails to parse, `PlanUpgrade`
still succeeds, the returned plan consists solely of ManagementUpgrade
steps (zero RuntimeUpgrade steps in every transition), and those steps are
exactly the ones any run with the same management inputs produces. -/
theorem C7_unparsable_runtime_degrades
    {currentRancher currentK8s platform : String} {versions : List String}
    {paths : UpgradePaths} {rv : GoVersion}
    (hr : NewVersion currentRancher = some rv)
    (hk : parseK8sVersion currentK8s = none) :
    PlanUpgrade currentRancher currentK8s platform versions paths =
      Except.ok (rancherStepsOf (GetKeyVersions versions) currentRancher rv) ∧
    (∀ st ∈ rancherStepsOf (GetKeyVersions versions) currentRancher rv,
      st.type = "Rancher") ∧
    ∀ (k8s' : String) (steps' : List UpgradeStep),
      PlanUpgrade currentRancher k8s' platform versions paths =
        Except.ok steps' →
      steps'.filter (fun s => s.type == "Rancher") =
        rancherStepsOf (GetKeyVersions versions) currentRancher rv := by
  refine ⟨?_, rancherStepsOf_types _ _ _, ?_⟩
  · rw [PlanUpgrade, hr]
    exact planLoop_noK8s (lowerStr platform) paths (GetKeyVersions versions)
      currentRancher rv currentK8s GetKeyVersions_parse hk
  · intro k8s' steps' hok
    rw [PlanUpgrade, hr] at hok
    have hok2 : planLoop (lowerStr platform) paths (GetKeyVersions versions)
        currentRancher rv k8s' = Except.ok steps' := hok
    obtain ⟨steps'', hok'', hfil, _⟩ := planLoop_ok (lowerStr platform) paths
      (GetKeyVersions versions) currentRancher rv k8s' GetKeyVersions_parse
    rw [hok''] at hok2
    have hsteps : steps'' = steps' := by injection hok2
    subst hsteps
    exact hfil

/-- Witness for C7: unparsable runtime version `"bad"`, one checkpoint. -/
theorem C7_unparsable_runtime_degrades_witness :
    PlanUpgrade "2.8.0" "bad" "rke2" ["2.8.9"] ⟨[]⟩ =
      Except.ok (rancherStepsOf (GetKeyVersions ["2.8.9"]) "2.8.0"
        ⟨[2, 8, 0], "2.8.0"⟩) ∧
    (∀ st ∈ rancherStepsOf (GetKeyVersions ["2.8.9"]) "2.8.0"
        ⟨[2, 8, 0], "2.8.0"⟩, st.type = "Rancher") ∧
    ∀ (k8s' : String) (steps' : List UpgradeStep),
      PlanUpgrade "2.8.0" k8s' "rke2" ["2.8.9"] ⟨[]⟩ = Except.ok steps' →
      steps'.filter (fun s => s.type == "Rancher") =
        rancherStepsOf (GetKeyVersions ["2.8.9"]) "2.8.0" ⟨[2, 8, 0], "2.8.0"⟩ :=
  C7_unparsable_runtime_degrades (by decide) (by decide)

/-- The versions selected by the planner's walk over the key versions:
each checkpoint strictly above the running current version. -/
def selVers : List String → GoVersion → List GoVersion
  | [], _ => []
  | v :: rest, cur =>
    match NewVersion v with
    | none => []
    | some nv => if vlt cur nv then nv :: selVers rest nv else selVers rest cur

/-- Each key-version string parses back to a version rendering to itself. -/
def ParsesToSelf (kvs : List String) : Prop :=
  ∀ v ∈ kvs, ∃ w, NewVersion v = some w ∧ verString w = v

theorem rancherStepsOf_map_to (kvs : List String) :
    ∀ (curR : String) (cur : GoVersion), ParsesToSelf kvs →
      (rancherStepsOf kvs curR cur).map (fun s => s.«to») =
        (selVers kvs cur).map verString := by
  induction kvs with
  | nil => intro curR cur _; rfl
  | cons v rest ih =>
    intro curR cur hvs
    obtain ⟨w, hw, hws⟩ := hvs v (List.mem_cons_self v rest)
    simp only [rancherStepsOf, selVers, hw]
    have hvs' : ParsesToSelf rest := fun u hu => hvs u (List.mem_cons_of_mem v hu)
    by_cases hlt : vlt cur w
    · rw [if_pos hlt, if_pos hlt]
      show v :: (rancherStepsOf rest v w).map (fun s => s.«to») =
        verString w :: (selVers rest w).map verString
      rw [ih v w hvs', hws]
    · rw [if_neg hlt, if_neg hlt]
      exact ih curR cur hvs'

theorem selVers_cons_none {v : String} {rest : List String} {cur : GoVersion}
    (h : NewVersion v = none) : selVers (v :: rest) cur = [] := by
  simp only [selVers, h]

theorem selVers_cons_some {v : String} {rest : List String} {cur nv : GoVersion}
    (h : NewVersion v = some nv) :
    selVers (v :: rest) cur =
      if vlt cur nv then nv :: selVers rest nv else selVers rest cur := by
  simp only [selVers, h]

theorem selVers_chain (kvs : List String) :
    ∀ cur : GoVersion, List.Chain vlt cur (selVers kvs cur) := by
  induction kvs with
  | nil => intro cur; exact List.Chain.nil
  | cons v rest ih =>
    intro cur
    cases hnv : NewVersion v with
    | none =>
      rw [selVers_cons_none hnv]
      exact List.Chain.nil
    | some nv =>
      rw [selVers_cons_some hnv]
      by_cases hlt : vlt cur nv
      · rw [if_pos hlt]
        exact List.Chain.cons hlt (ih nv)
      · rw [if_neg hlt]
        exact ih cur

theorem selVers_gt (kvs : List String) :
    ∀ (cur : GoVersion), ∀ w ∈ selVers kvs cur, vlt cur w := by
  induction kvs with
  | nil => intro cur w hw; simp [selVers] at hw
  | cons v rest ih =>
    intro cur w hw
    rw [selVers] at hw
    revert hw
    cases hnv : NewVersion v with
    | none => intro hw; simp at hw
    | some nv =>
      intro hw
      have hw' : w ∈ (if vlt cur nv then nv :: selVers rest nv
          else selVers rest cur) := hw
      by_cases hlt : vlt cur nv
      · rw [if_pos hlt] at hw'
        rcases List.mem_cons.mp hw' with h1 | h1
        · subst h1; exact hlt
        · exact vlt_trans hlt (ih nv w h1)
      · rw [if_neg hlt] at hw'
        exact ih cur w hw'

theorem selVers_mem_strings (kvs : List String) :
    ∀ (cur : GoVersion), ParsesToSelf kvs →
      ∀ w ∈ selVers kvs cur, verString w ∈ kvs := by
  induction kvs with
  | nil => intro cur _ w hw; simp [selVers] at hw
  | cons v rest ih =>
    intro cur hvs w hw
    obtain ⟨u, hu, hus⟩ := hvs v (List.mem_cons_self v rest)
    rw [selVers, hu] at hw
    have hvs' : ParsesToSelf rest := fun x hx => hvs x (List.mem_cons_of_mem v hx)
    have hw' : w ∈ (if vlt cur u then u :: selVers rest u
        else selVers rest cur) := hw
    by_cases hlt : vlt cur u
    · rw [if_pos hlt] at hw'
      rcases List.mem_cons.mp hw' with h1 | h1
      · subst h1
        rw [hus]
        exact List.mem_cons_self v rest
      · exact List.mem_cons_of_mem v (ih u hvs' w h1)
    · rw [if_neg hlt] at hw'
      exact List.mem_cons_of_mem v (ih cur hvs' w hw')

/-- The sortedness relation the planner relies on: later key strings parse
to versions at least as large. -/
def SortedParses (kvs : List String) : Prop :=
  List.Pairwise (fun a b => ∀ pa pb, NewVersion a = some pa →
    NewVersion b = some pb → vle pa pb) kvs

theorem selVers_covers (kvs : List String) :
    ∀ (cur : GoVersion), ParsesToSelf kvs → SortedParses kvs →
      ∀ s ∈ kvs, ∀ sv, NewVersion s = some sv → vlt cur sv →
        ∃ w ∈ selVers kvs cur, verEq w sv := by
  induction kvs with
  | nil => intro cur _ _ s hs; simp at hs
  | cons v rest ih =>
    intro cur hvs hsort s hs sv hsv hcur
    obtain ⟨u, hu, _⟩ := hvs v (List.mem_cons_self v rest)
    have hvs' : ParsesToSelf rest := fun x hx => hvs x (List.mem_cons_of_mem v hx)
    obtain ⟨hrel, hsort'⟩ := List.pairwise_cons.mp hsort
    rw [selVers_cons_some hu]
    by_cases hlt : vlt cur u
    · rw [if_pos hlt]
      rcases List.mem_cons.mp hs with h1 | h1
      · subst h1
        rw [hu] at hsv
        have : u = sv := by injection hsv
        subst this
        exact ⟨u, List.mem_cons_self u _, verEq_refl u⟩
      · by_cases hnlt : vlt u sv
        · obtain ⟨w, hwmem, hweq⟩ := ih u hvs' hsort' s h1 sv hsv hnlt
          exact ⟨w, List.mem_cons_of_mem u hwmem, hweq⟩
        · have hle : vle u sv := hrel s h1 u sv hu hsv
          exact ⟨u, List.mem_cons_self u _,
            verEq_of_not_lt_not_gt hnlt hle⟩
    · rw [if_neg hlt]
      rcases List.mem_cons.mp hs with h1 | h1
      · subst h1
        rw [hu] at hsv
        have : u = sv := by injection hsv
        subst this
        exact absurd hcur hlt
      · exact ih cur hvs' hsort' s h1 sv hsv hcur

theorem selVers_empty (kvs : List String) :
    ∀ (cur : GoVersion),
      (∀ s ∈ kvs, ∀ sv, NewVersion s = some sv → vle sv cur) →
      selVers kvs cur = [] := by
  induction kvs with
  | nil => intro cur _; rfl
  | cons v rest ih =>
    intro cur hall
    cases hnv : NewVersion v with
    | none => exact selVers_cons_none hnv
    | some nv =>
      rw [selVers_cons_some hnv]
      have hle : vle nv cur := hall v (List.mem_cons_self v rest) nv hnv
      rw [if_neg (not_vlt_of_vle hle)]
      exact ih cur (fun s hs => hall s (List.mem_cons_of_mem v hs))

theorem GetKeyVersions_parsesToSelf (versions : List String) :
    ParsesToSelf (GetKeyVersions versions) := by
  intro v hv
  obtain ⟨w, hw, hws, _⟩ := GetKeyVersions_roundtrip hv
  exact ⟨w, hw, hws⟩

theorem GetKeyVersions_sorted (versions : List String) :
    SortedParses (GetKeyVersions versions) := by
  rw [GetKeyVersions, SortedParses, List.pairwise_map]
  have hsorted : List.Pairwise vle (GetKeyVersionsV versions) :=
    List.sorted_insertionSort vle _
  apply hsorted.imp_of_mem
  intro a b ha _ hab pa pb hpa hpb
  have hla : 3 ≤ a.segments.length := by
    obtain ⟨s, hs⟩ := GetKeyVersionsV_mem ha
    exact (NewVersion_some hs).1
  rw [NewVersion_verString hla] at hpa
  have hpa' : pa = ⟨a.segments, verString a⟩ := by
    injection hpa with h
    exact h.symm
  have hlb : 3 ≤ b.segments.length := by
    have hb' : b ∈ GetKeyVersionsV versions := by assumption
    obtain ⟨s, hs⟩ := GetKeyVersionsV_mem hb'
    exact (NewVersion_some hs).1
  rw [NewVersion_verString hlb] at hpb
  have hpb' : pb = ⟨b.segments, verString b⟩ := by
    injection hpb with h
    exact h.symm
  subst hpa'; subst hpb'
  exact hab

/-- **C1**: in every successful plan, the ManagementUpgrade (type
`"Rancher"`) steps' target versions form a strictly increasing chain above
the input management version, each target is a checkpoint from
`GetKeyVersions`, every checkpoint strictly greater than the input is
represented (up to `Compare`-equality) by some target, and when no
checkpoint exceeds the input the plan has zero ManagementUpgrade steps. -/
theorem C1_management_steps {currentRancher currentK8s platform : String}
    {versions : List String} {paths : UpgradePaths} {steps : List UpgradeStep}
    {r0 : GoVersion}
    (hr : NewVersion currentRancher = some r0)
    (hok : PlanUpgrade currentRancher currentK8s platform versions paths =
      Except.ok steps) :
    ∃ sel : List GoVersion,
      (steps.filter (fun s => s.type == "Rancher")).map (fun s => s.«to») =
        sel.map verString ∧
      List.Chain vlt r0 sel ∧
      (∀ w ∈ sel, verString w ∈ GetKeyVersions versions ∧ vlt r0 w) ∧
      (∀ s ∈ GetKeyVersions versions, ∀ sv, NewVersion s = some sv →
        vlt r0 sv → ∃ w ∈ sel, verEq w sv) ∧
      ((∀ s ∈ GetKeyVersions versions, ∀ sv, NewVersion s = some sv →
        vle sv r0) → steps.filter (fun s => s.type == "Rancher") = []) := by
  rw [PlanUpgrade, hr] at hok
  have hok2 : planLoop (lowerStr platform) paths (GetKeyVersions versions)
      currentRancher r0 currentK8s = Except.ok steps := hok
  obtain ⟨steps'', hok'', hfil, _⟩ := planLoop_ok (lowerStr platform) paths
    (GetKeyVersions versions) currentRancher r0 currentK8s GetKeyVersions_parse
  rw [hok''] at hok2
  have hsteps : steps'' = steps := by injection hok2
  subst hsteps
  have hvs := GetKeyVersions_parsesToSelf versions
  refine ⟨selVers (GetKeyVersions versions) r0, ?_, ?_, ?_, ?_, ?_⟩
  · rw [hfil]
    exact rancherStepsOf_map_to _ currentRancher r0 hvs
  · exact selVers_chain _ r0
  · intro w hw
    exact ⟨selVers_mem_strings _ r0 hvs w hw, selVers_gt _ r0 w hw⟩
  · exact selVers_covers _ r0 hvs (GetKeyVersions_sorted versions)
  · intro hall
    have hempty := selVers_empty (GetKeyVersions versions) r0 hall
    have hmap := rancherStepsOf_map_to (GetKeyVersions versions)
      currentRancher r0 hvs
    rw [hempty] at hmap
    simp at hmap
    rw [hfil]
    exact hmap

/-- Witness for C1: `2.8.0` against checkpoints `{2.7.5, 2.8.9}` (only
`2.8.9` is above the input; the runtime version is unparsable, so the plan
is the single management step). -/
theorem C1_management_steps_witness :
    ∃ sel : List GoVersion,
      (([UpgradeStep.mk "Rancher" "" "2.8.0" "2.8.9"]).filter
          (fun s => s.type == "Rancher")).map (fun s => s.«to») =
        sel.map verString ∧
      List.Chain vlt ⟨[2, 8, 0], "2.8.0"⟩ sel ∧
      (∀ w ∈ sel, verString w ∈ GetKeyVersions ["2.8.9", "2.7.5"] ∧
        vlt ⟨[2, 8, 0], "2.8.0"⟩ w) ∧
      (∀ s ∈ GetKeyVersions ["2.8.9", "2.7.5"], ∀ sv, NewVersion s = some sv →
        vlt ⟨[2, 8, 0], "2.8.0"⟩ sv → ∃ w ∈ sel, verEq w sv) ∧
      ((∀ s ∈ GetKeyVersions ["2.8.9", "2.7.5"], ∀ sv, NewVersion s = some sv →
        vle sv ⟨[2, 8, 0], "2.8.0"⟩) →
        ([UpgradeStep.mk "Rancher" "" "2.8.0" "2.8.9"]).filter
          (fun s => s.type == "Rancher") = []) :=
  @C1_management_steps "2.8.0" "x" "none" ["2.8.9", "2.7.5"] ⟨[]⟩
    [UpgradeStep.mk "Rancher" "" "2.8.0" "2.8.9"] ⟨[2, 8, 0], "2.8.0"⟩
    (by decide) (by rfl)

/-- The management state (string and parsed version) after the planner's
walk over the key versions. -/
def finalRancher : List String → String → GoVersion → String × GoVersion
  | [], curR, cur => (curR, cur)
  | v :: rest, curR, cur =>
    match NewVersion v with
    | none => (curR, cur)
    | some nv =>
      if vlt cur nv then finalRancher rest v nv else finalRancher rest curR cur

theorem finalRancher_cons_some {v : String} {rest : List String}
    {curR : String} {cur nv : GoVersion} (h : NewVersion v = some nv) :
    finalRancher (v :: rest) curR cur =
      if vlt cur nv then finalRancher rest v nv
      else finalRancher rest curR cur := by
  simp only [finalRancher, h]

/-- The `to` of the last step of a list, or a default (the state the
planner's `currentRancher`/`currentK8s` variables hold after the loop). -/
def lastToOr (steps : List UpgradeStep) (dflt : String) : String :=
  (steps.map (fun s => s.«to»)).getLastD dflt

theorem lastToOr_cons (a : UpgradeStep) (l : List UpgradeStep) (d : String) :
    lastToOr (a :: l) d = lastToOr l a.«to» := by
  rw [lastToOr, lastToOr, List.map_cons, List.getLastD_cons]

theorem finalRancher_parses (kvs : List String) :
    ∀ (curR : String) (cur : GoVersion), NewVersion curR = some cur →
      NewVersion (finalRancher kvs curR cur).1 =
        some (finalRancher kvs curR cur).2 := by
  induction kvs with
  | nil => intro curR cur h; exact h
  | cons v rest ih =>
    intro curR cur h
    cases hnv : NewVersion v with
    | none =>
      have : finalRancher (v :: rest) curR cur = (curR, cur) := by
        simp only [finalRancher, hnv]
      rw [this]
      exact h
    | some nv =>
      rw [finalRancher_cons_some hnv]
      by_cases hlt : vlt cur nv
      · rw [if_pos hlt]
        exact ih v nv hnv
      · rw [if_neg hlt]
        exact ih curR cur h

theorem finalRancher_max (kvs : List String) :
    ∀ (curR : String) (cur : GoVersion),
      (∀ v ∈ kvs, (NewVersion v).isSome = true) →
      vle cur (finalRancher kvs curR cur).2 ∧
      ∀ v ∈ kvs, ∀ pv, NewVersion v = some pv →
        vle pv (finalRancher kvs curR cur).2 := by
  induction kvs with
  | nil =>
    intro curR cur _
    exact ⟨vle_refl cur, by simp⟩
  | cons v rest ih =>
    intro curR cur hparse
    obtain ⟨nv, hnv⟩ := Option.isSome_iff_exists.mp
      (hparse v (List.mem_cons_self v rest))
    rw [finalRancher_cons_some hnv]
    have hparse' : ∀ u ∈ rest, (NewVersion u).isSome = true :=
      fun u hu => hparse u (List.mem_cons_of_mem v hu)
    by_cases hlt : vlt cur nv
    · rw [if_pos hlt]
      obtain ⟨h1, h2⟩ := ih v nv hparse'
      refine ⟨vle_trans (vle_of_vlt hlt) h1, ?_⟩
      intro u hu pu hpu
      rcases List.mem_cons.mp hu with he | he
      · subst he
        rw [hnv] at hpu
        injection hpu with h
        subst h
        exact h1
      · exact h2 u he pu hpu
    · rw [if_neg hlt]
      obtain ⟨h1, h2⟩ := ih curR cur hparse'
      refine ⟨h1, ?_⟩
      intro u hu pu hpu
      rcases List.mem_cons.mp hu with he | he
      · subst he
        rw [hnv] at hpu
        injection hpu with h
        subst h
        exact vle_trans (vle_of_not_vlt hlt) h1
      · exact h2 u he pu hpu

theorem rancherStepsOf_lastTo (kvs : List String) :
    ∀ (curR : String) (cur : GoVersion),
      lastToOr (rancherStepsOf kvs curR cur) curR =
        (finalRancher kvs curR cur).1 := by
  induction kvs with
  | nil => intro curR cur; rfl
  | cons v rest ih =>
    intro curR cur
    cases hnv : NewVersion v with
    | none =>
      have h1 : rancherStepsOf (v :: rest) curR cur = [] := by
        simp only [rancherStepsOf, hnv]
      have h2 : finalRancher (v :: rest) curR cur = (curR, cur) := by
        simp only [finalRancher, hnv]
      rw [h1, h2]
      rfl
    | some nv =>
      have h1 : rancherStepsOf (v :: rest) curR cur =
          if vlt cur nv then
            UpgradeStep.mk "Rancher" "" curR v :: rancherStepsOf rest v nv
          else rancherStepsOf rest curR cur := by
        simp only [rancherStepsOf, hnv]
      rw [h1, finalRancher_cons_some hnv]
      by_cases hlt : vlt cur nv
      · rw [if_pos hlt, if_pos hlt, lastToOr_cons]
        exact ih v nv
      · rw [if_neg hlt, if_neg hlt]
        exact ih curR cur

/-- When the starting version already dominates every key version, the
planner's loop emits nothing. -/
theorem planLoop_max_empty (pl : String) (paths : UpgradePaths) :
    ∀ (kvs : List String) (curR : String) (cur : GoVersion) (curK : String),
      (∀ v ∈ kvs, (NewVersion v).isSome = true) →
      (∀ v ∈ kvs, ∀ pv, NewVersion v = some pv → vle pv cur) →
      planLoop pl paths kvs curR cur curK = Except.ok [] := by
  intro kvs
  induction kvs with
  | nil => intro curR cur curK _ _; rfl
  | cons v rest ih =>
    intro curR cur curK hparse hmax
    obtain ⟨nv, hnv⟩ := Option.isSome_iff_exists.mp
      (hparse v (List.mem_cons_self v rest))
    simp only [planLoop, hnv]
    have hle : vle nv cur := hmax v (List.mem_cons_self v rest) nv hnv
    rw [if_neg (not_vlt_of_vle hle)]
    exact ih curR cur curK (fun u hu => hparse u (List.mem_cons_of_mem v hu))
      (fun u hu => hmax u (List.mem_cons_of_mem v hu))

/-- **C9**: feeding a successful plan's final state — the last
ManagementUpgrade step's `to` (or the original management version if none)
and the last RuntimeUpgrade step's `to` (or the original runtime version
if none) — back into `PlanUpgrade` with the same platform and
known-version list yields an empty plan. -/
theorem C9_idempotent {currentRancher currentK8s platform : String}
    {versions : List String} {paths : UpgradePaths} {steps : List UpgradeStep}
    (hok : PlanUpgrade currentRancher currentK8s platform versions paths =
      Except.ok steps) :
    PlanUpgrade
      (lastToOr (steps.filter (fun s => s.type == "Rancher")) currentRancher)
      (lastToOr (steps.filter (fun s => s.type == "Kubernetes")) currentK8s)
      platform versions paths = Except.ok [] := by
  rw [PlanUpgrade] at hok
  revert hok
  cases hr : NewVersion currentRancher with
  | none => intro hok; exact Except.noConfusion hok
  | some r0 =>
    intro hok
    have hok2 : planLoop (lowerStr platform) paths (GetKeyVersions versions)
        currentRancher r0 currentK8s = Except.ok steps := hok
    obtain ⟨steps'', hok'', hfil, _⟩ := planLoop_ok (lowerStr platform) paths
      (GetKeyVersions versions) currentRancher r0 currentK8s GetKeyVersions_parse
    rw [hok''] at hok2
    have hsteps : steps'' = steps := by injection hok2
    subst hsteps
    rw [hfil, rancherStepsOf_lastTo, PlanUpgrade,
      finalRancher_parses (GetKeyVersions versions) currentRancher r0 hr]
    exact planLoop_max_empty (lowerStr platform) paths (GetKeyVersions versions)
      _ _ _ GetKeyVersions_parse
      (finalRancher_max (GetKeyVersions versions) currentRancher r0
        GetKeyVersions_parse).2

/-- Witness for C9: the plan `2.8.0 → 2.8.9` re-run from its final state. -/
theorem C9_idempotent_witness :
    PlanUpgrade
      (lastToOr (([UpgradeStep.mk "Rancher" "" "2.8.0" "2.8.9"]).filter
        (fun s => s.type == "Rancher")) "2.8.0")
      (lastToOr (([UpgradeStep.mk "Rancher" "" "2.8.0" "2.8.9"]).filter
        (fun s => s.type == "Kubernetes")) "1.24.0")
      "rke2" ["2.8.9"] ⟨[]⟩ = Except.ok [] :=
  @C9_idempotent "2.8.0" "1.24.0" "rke2" ["2.8.9"] ⟨[]⟩
    [UpgradeStep.mk "Rancher" "" "2.8.0" "2.8.9"] (by rfl)

/-- **C10**: the stepper loop of `GetAllowedK8sUpgrades` terminates: every
selected candidate is drawn from the candidate list and is strictly
greater than the current version, so the chain is strictly increasing, its
length is bounded by the number of candidates above the start, and any
fuel above that bound computes the same (limit) chain as the unbounded Go
loop. -/
theorem C10_stepper_terminates (cur : GoVersion) (list : List GoVersion)
    (allowSkip : Bool) :
    (∀ res, findNextAcceptableK8sVersion cur list allowSkip = some res →
      res ∈ list ∧ vlt cur res) ∧
    (∀ fuel, gtCount cur list < fuel →
      stepChainAux list allowSkip fuel cur = stepChain cur list allowSkip) ∧
    (stepChain cur list allowSkip).length ≤ gtCount cur list ∧
    List.Chain vlt cur ((stepChain cur list allowSkip).map (fun q => q.2)) := by
  refine ⟨?_, ?_, ?_, ?_⟩
  · intro res h
    exact ⟨(findNext_some h).1, (findNext_some h).2.1⟩
  · intro fuel hf
    apply stepChainAux_fuel list allowSkip fuel (list.length + 1) cur hf
    have := List.length_filter_le (fun v => decide (vlt cur v)) list
    rw [gtCount]
    omega
  · exact stepChainAux_length list allowSkip (list.length + 1) cur
  · exact stepChainAux_chain list allowSkip (list.length + 1) cur

/-- Witness for C10 at a concrete one-candidate list. -/
theorem C10_stepper_terminates_witness :
    ((⟨[1, 25, 0], "1.25.0"⟩ : GoVersion) ∈
        ([⟨[1, 25, 0], "1.25.0"⟩] : List GoVersion) ∧
      vlt ⟨[1, 24, 0], "1.24.0"⟩ ⟨[1, 25, 0], "1.25.0"⟩) ∧
    stepChainAux [⟨[1, 25, 0], "1.25.0"⟩] false 3 ⟨[1, 24, 0], "1.24.0"⟩ =
      stepChain ⟨[1, 24, 0], "1.24.0"⟩ [⟨[1, 25, 0], "1.25.0"⟩] false ∧
    (stepChain ⟨[1, 24, 0], "1.24.0"⟩ [⟨[1, 25, 0], "1.25.0"⟩] false).length ≤
      gtCount ⟨[1, 24, 0], "1.24.0"⟩ [⟨[1, 25, 0], "1.25.0"⟩] ∧
    List.Chain vlt ⟨[1, 24, 0], "1.24.0"⟩
      ((stepChain ⟨[1, 24, 0], "1.24.0"⟩ [⟨[1, 25, 0], "1.25.0"⟩] false).map
        (fun q => q.2)) :=
  ⟨⟨((C10_stepper_terminates ⟨[1, 24, 0], "1.24.0"⟩ [⟨[1, 25, 0], "1.25.0"⟩]
        false).1 ⟨[1, 25, 0], "1.25.0"⟩ (by decide)).1,
      ((C10_stepper_terminates ⟨[1, 24, 0], "1.24.0"⟩ [⟨[1, 25, 0], "1.25.0"⟩]
        false).1 ⟨[1, 25, 0], "1.25.0"⟩ (by decide)).2⟩,
    (C10_stepper_terminates ⟨[1, 24, 0], "1.24.0"⟩ [⟨[1, 25, 0], "1.25.0"⟩]
      false).2.1 3 (by decide),
    (C10_stepper_terminates ⟨[1, 24, 0], "1.24.0"⟩ [⟨[1, 25, 0], "1.25.0"⟩]
      false).2.2.1,
    (C10_stepper_terminates ⟨[1, 24, 0], "1.24.0"⟩ [⟨[1, 25, 0], "1.25.0"⟩]
      false).2.2.2⟩

/-! ### Properties of the range expander -/

/-- Invariant of the `versionSet` map: each stored value renders to its
key, and keys are distinct. -/
def SetInv (m : List (String × GoVersion)) : Prop :=
  (∀ p ∈ m, p.2.original = p.1) ∧ (m.map Prod.fst).Nodup

theorem setInsert_inv {m : List (String × GoVersion)} {k : String}
    {v : GoVersion} (hv : v.original = k) (h : SetInv m) :
    SetInv (setInsert m k v) := by
  obtain ⟨h1, h2⟩ := h
  rw [setInsert]
  by_cases hany : m.any (fun p => p.1 == k) = true
  · rw [if_pos hany]
    constructor
    · intro p hp
      obtain ⟨q, hq, hpq⟩ := List.mem_map.mp hp
      by_cases hqk : (q.1 == k) = true
      · rw [if_pos hqk] at hpq
        rw [← hpq]
        exact hv
      · rw [if_neg hqk] at hpq
        rw [← hpq]
        exact h1 q hq
    · have hmap : (m.map (fun p => if p.1 == k then (k, v) else p)).map Prod.fst =
          m.map Prod.fst := by
        rw [List.map_map]
        apply List.map_congr_left
        intro p _
        by_cases hpk : (p.1 == k) = true
        · have : p.1 = k := by simpa using hpk
          simp [hpk, this]
        · have hne : p.1 ≠ k := by simpa using hpk
          simp [hne]
      rw [hmap]
      exact h2
  · rw [if_neg hany]
    constructor
    · intro p hp
      rcases List.mem_append.mp hp with h3 | h3
      · exact h1 p h3
      · have : p = (k, v) := by simpa using h3
        rw [this]
        exact hv
    · rw [List.map_append]
      rw [List.nodup_append]
      refine ⟨h2, by simp, ?_⟩
      intro a ha hb
      have hak : a = k := by simpa using hb
      subst hak
      obtain ⟨q, hq, hqa⟩ := List.mem_map.mp ha
      rw [List.any_eq_true] at hany
      exact hany ⟨q, hq, by simpa using hqa⟩

theorem foldl_setInsert_inv (l : List GoVersion) :
    ∀ m, SetInv m →
      SetInv (l.foldl (fun acc v => setInsert acc v.original v) m) := by
  induction l with
  | nil => intro m h; exact h
  | cons v l ih =>
    intro m h
    exact ih (setInsert m v.original v) (setInsert_inv rfl h)

theorem versionSetStep_inv {platformLower : String}
    {m : List (String × GoVersion)} (p : Platform) (h : SetInv m) :
    SetInv (versionSetStep platformLower m p) := by
  rw [versionSetStep]
  by_cases hmatch : (lowerStr p.platform == platformLower) = true
  · rw [if_pos hmatch]
    cases NewVersion (cleanVersion p.minVersion) with
    | none => exact h
    | some minVer =>
      cases NewVersion (cleanVersion p.maxVersion) with
      | none => exact h
      | some maxVer => exact foldl_setInsert_inv _ m h
  · rw [if_neg hmatch]
    exact h

theorem versionSetFold_inv (platformLower : String)
    (platforms : List Platform) :
    SetInv (versionSetFold platformLower platforms) := by
  rw [versionSetFold]
  have hgen : ∀ (l : List Platform) (m : List (String × GoVersion)), SetInv m →
      SetInv (l.foldl (versionSetStep platformLower) m) := by
    intro l
    induction l with
    | nil => intro m h; exact h
    | cons p l ih =>
      intro m h
      exact ih (versionSetStep platformLower m p) (versionSetStep_inv p h)
  exact hgen platforms [] ⟨by simp, by simp⟩

theorem versionSetStep_skip {platformLower : String} (p : Platform)
    (hbad : NewVersion (cleanVersion p.minVersion) = none ∨
      NewVersion (cleanVersion p.maxVersion) = none) :
    ∀ m, versionSetStep platformLower m p = m := by
  intro m
  rw [versionSetStep]
  by_cases hmatch : (lowerStr p.platform == platformLower) = true
  · rw [if_pos hmatch]
    rcases hbad with hb | hb
    · rw [hb]
    · rw [hb]
      cases NewVersion (cleanVersion p.minVersion) with
      | none => rfl
      | some minVer => rfl
  · rw [if_neg hmatch]

theorem foldl_skip_middle {α β : Type} (f : β → α → β) (e : α)
    (he : ∀ m, f m e = m) :
    ∀ (l1 l2 : List α) (i : β),
      List.foldl f i (l1 ++ e :: l2) = List.foldl f i (l1 ++ l2) := by
  intro l1
  induction l1 with
  | nil =>
    intro l2 i
    rw [List.nil_append, List.nil_append, List.foldl_cons, he]
  | cons a l1 ih =>
    intro l2 i
    rw [List.cons_append, List.cons_append, List.foldl_cons, List.foldl_cons]
    exact ih l2 (f i a)

theorem versionSetFold_skip_middle (pl : String) (e : Platform)
    (hbad : NewVersion (cleanVersion e.minVersion) = none ∨
      NewVersion (cleanVersion e.maxVersion) = none)
    (l1 l2 : List Platform) :
    versionSetFold pl (l1 ++ e :: l2) = versionSetFold pl (l1 ++ l2) := by
  rw [versionSetFold, versionSetFold]
  exact foldl_skip_middle _ e (versionSetStep_skip e hbad) l1 l2 []

theorem versionSetFold_no_match (pl : String) (platforms : List Platform)
    (h : ∀ p ∈ platforms, ¬ lowerStr p.platform = pl) :
    versionSetFold pl platforms = [] := by
  rw [versionSetFold]
  have hgen : ∀ (l : List Platform) (m : List (String × GoVersion)),
      (∀ p ∈ l, ¬ lowerStr p.platform = pl) →
      List.foldl (versionSetStep pl) m l = m := by
    intro l
    induction l with
    | nil => intro m _; rfl
    | cons p l ih =>
      intro m hl
      rw [List.foldl_cons]
      have hstep : versionSetStep pl m p = m := by
        rw [versionSetStep, if_neg]
        simp only [beq_iff_eq]
        exact hl p (List.mem_cons_self p l)
      rw [hstep]
      exact ih m (fun q hq => hl q (List.mem_cons_of_mem p hq))
  exact hgen platforms [] h

/-- **C8 counterexample**: with the single entry `rke2 : v1.26 – v1.27`
the range expander keeps both the endpoint spelling `1.27` and the
synthesized `1.27.0` — two elements with the same *normalized* version
string — because the version set is keyed by `Original()`, not by the
normalized rendering; so the claimed dedup-by-normalized-string fails. -/
theorem C8_counterexample :
    ¬ ((getSortedK8sVersions "rke2"
        ⟨[⟨"rke2", "v1.26", "v1.27", ""⟩]⟩ ⟨[]⟩).map verString).Nodup := by
  decide

/-- **C8 amended**: the candidate sequence is sorted ascending and
deduplicated by *original* version string (`Compare`-equal versions with
different spellings, e.g. `1.27` and `1.27.0`, may both appear); an entry
whose min or max version fails to parse contributes nothing; and if no
entry of either management version matches the platform case-insensitively
the sequence is empty. -/
theorem C8_amended (platform : String) (r1 r2 : RancherManagerVersion) :
    List.Pairwise vle (getSortedK8sVersions platform r1 r2) ∧
    ((getSortedK8sVersions platform r1 r2).map (fun v => v.original)).Nodup ∧
    (∀ (es1 es2 : List Platform) (e : Platform),
      (NewVersion (cleanVersion e.minVersion) = none ∨
        NewVersion (cleanVersion e.maxVersion) = none) →
      getSortedK8sVersions platform ⟨es1 ++ e :: es2⟩ r2 =
        getSortedK8sVersions platform ⟨es1 ++ es2⟩ r2 ∧
      getSortedK8sVersions platform r1 ⟨es1 ++ e :: es2⟩ =
        getSortedK8sVersions platform r1 ⟨es1 ++ es2⟩) ∧
    ((∀ e ∈ r1.supportedPlatforms ++ r2.supportedPlatforms,
        ¬ lowerStr e.platform = lowerStr platform) →
      getSortedK8sVersions platform r1 r2 = []) := by
  refine ⟨?_, ?_, ?_, ?_⟩
  · exact List.sorted_insertionSort vle _
  · have hinv := versionSetFold_inv (lowerStr platform)
      (r1.supportedPlatforms ++ r2.supportedPlatforms)
    have hperm : List.Perm
        ((getSortedK8sVersions platform r1 r2).map (fun v => v.original))
        (((versionSetFold (lowerStr platform)
          (r1.supportedPlatforms ++ r2.supportedPlatforms)).map
            (fun p => p.2)).map (fun v => v.original)) :=
      (List.perm_insertionSort vle _).map (fun v => v.original)
    rw [hperm.nodup_iff, List.map_map]
    have hcongr : (versionSetFold (lowerStr platform)
        (r1.supportedPlatforms ++ r2.supportedPlatforms)).map
          ((fun v => v.original) ∘ (fun p => p.2)) =
        (versionSetFold (lowerStr platform)
          (r1.supportedPlatforms ++ r2.supportedPlatforms)).map Prod.fst :=
      List.map_congr_left (fun p hp => hinv.1 p hp)
    rw [hcongr]
    exact hinv.2
  · intro es1 es2 e hbad
    constructor
    · show vleSort ((versionSetFold (lowerStr platform)
          ((es1 ++ e :: es2) ++ r2.supportedPlatforms)).map (fun p => p.2)) =
        vleSort ((versionSetFold (lowerStr platform)
          ((es1 ++ es2) ++ r2.supportedPlatforms)).map (fun p => p.2))
      rw [List.append_assoc, List.cons_append, List.append_assoc,
        versionSetFold_skip_middle (lowerStr platform) e hbad es1
          (es2 ++ r2.supportedPlatforms)]
    · show vleSort ((versionSetFold (lowerStr platform)
          (r1.supportedPlatforms ++ (es1 ++ e :: es2))).map (fun p => p.2)) =
        vleSort ((versionSetFold (lowerStr platform)
          (r1.supportedPlatforms ++ (es1 ++ es2))).map (fun p => p.2))
      rw [← List.append_assoc, ← List.append_assoc,
        versionSetFold_skip_middle (lowerStr platform) e hbad
          (r1.supportedPlatforms ++ es1) es2]
  · intro hmis
    show vleSort ((versionSetFold (lowerStr platform)
        (r1.supportedPlatforms ++ r2.supportedPlatforms)).map (fun p => p.2)) = []
    rw [versionSetFold_no_match _ _ hmis]
    rfl

/-- Witness for the amended C8 on concrete data. -/
theorem C8_amended_witness :
    List.Pairwise vle (getSortedK8sVersions "rke2"
      ⟨[⟨"rke2", "1.24.0", "1.25.0", ""⟩]⟩ ⟨[]⟩) ∧
    ((getSortedK8sVersions "rke2"
      ⟨[⟨"rke2", "1.24.0", "1.25.0", ""⟩]⟩ ⟨[]⟩).map
        (fun v => v.original)).Nodup ∧
    getSortedK8sVersions "rke2" ⟨[] ++ ⟨"rke2", "bad", "1.25.0", ""⟩ :: []⟩
        ⟨[]⟩ =
      getSortedK8sVersions "rke2" ⟨[] ++ []⟩ ⟨[]⟩ ∧
    getSortedK8sVersions "rke2" ⟨[⟨"aks", "1.24.0", "1.25.0", ""⟩]⟩ ⟨[]⟩ = [] :=
  ⟨(C8_amended "rke2" ⟨[⟨"rke2", "1.24.0", "1.25.0", ""⟩]⟩ ⟨[]⟩).1,
    (C8_amended "rke2" ⟨[⟨"rke2", "1.24.0", "1.25.0", ""⟩]⟩ ⟨[]⟩).2.1,
    ((C8_amended "rke2" ⟨[]⟩ ⟨[]⟩).2.2.1 [] [] ⟨"rke2", "bad", "1.25.0", ""⟩
      (Or.inl (by decide))).1,
    (C8_amended "rke2" ⟨[⟨"aks", "1.24.0", "1.25.0", ""⟩]⟩ ⟨[]⟩).2.2.2
      (by decide)⟩

theorem natChars_zero : natChars 0 = ['0'] := by decide

/-- The string `fmt.Sprintf("%d.%d.0", a, b)` synthesized by the minor
bump is the rendering of the version `[a, b, 0]`. -/
theorem synth_str_eq (a b : Nat) :
    verString ⟨[a, b, 0], ""⟩ =
      String.mk (natChars a ++ '.' :: natChars b ++ ['.', '0']) := by
  rw [verString]
  show String.mk (joinDots [natChars a, natChars b, natChars 0]) = _
  rw [joinDots, joinDots, joinDots, natChars_zero]
  all_goals simp

theorem NewVersion_synth (a b : Nat) :
    NewVersion (String.mk (natChars a ++ '.' :: natChars b ++ ['.', '0'])) =
      some ⟨[a, b, 0], verString ⟨[a, b, 0], ""⟩⟩ := by
  rw [← synth_str_eq a b]
  exact NewVersion_verString (by simp)

theorem cmpSegs_minor_bump (s0 s1 : Nat) (srest : List Nat) :
    cmpSegs (s0 :: s1 :: srest) [s0, s1 + 1, 0] = Ordering.lt := by
  show (if s0 < s0 then Ordering.lt else if s0 < s0 then Ordering.gt
    else cmpSegs (s1 :: srest) [s1 + 1, 0]) = Ordering.lt
  rw [if_neg (Nat.lt_irrefl s0), if_neg (Nat.lt_irrefl s0)]
  show (if s1 < s1 + 1 then Ordering.lt else _) = Ordering.lt
  rw [if_pos (Nat.lt_succ_self s1)]

/-- **C5 counterexample**: an entry whose parsed `minVersion` (`1.27.0`)
strictly exceeds its parsed `maxVersion` (`1.24.0`) still generates
versions: the exact endpoints are appended unconditionally before the
range check can stop anything, so the entry contributes two versions to
the candidate sequence rather than none. -/
theorem C5_counterexample :
    getMinorVersionsBetween ⟨[1, 27, 0], "1.27.0"⟩ ⟨[1, 24, 0], "1.24.0"⟩
        ⟨"rke2", "1.27.0", "1.24.0", ""⟩ =
      [⟨[1, 27, 0], "1.27.0"⟩, ⟨[1, 24, 0], "1.24.0"⟩] ∧
    getSortedK8sVersions "rke2" ⟨[⟨"rke2", "1.27.0", "1.24.0", ""⟩]⟩ ⟨[]⟩ =
      [⟨[1, 24, 0], "1.24.0"⟩, ⟨[1, 27, 0], "1.27.0"⟩] := by
  constructor <;> decide

/-- **C5 amended**: for an entry whose parsed min strictly exceeds its
parsed max, the expansion generates no *synthesized intermediate* versions
— but it still contributes exactly the entry's two parsed endpoint
versions, min first. -/
theorem C5_amended {p : Platform} {minVer maxVer : GoVersion}
    (hmin : NewVersion (cleanVersion p.minVersion) = some minVer)
    (hmax : NewVersion (cleanVersion p.maxVersion) = some maxVer)
    (hgt : vlt maxVer minVer) :
    getMinorVersionsBetween minVer maxVer p = [minVer, maxVer] := by
  have hne : ¬ verEq maxVer minVer := by
    rw [verEq, vlt] at *
    rw [hgt]
    simp
  have hbase : getMinorVersionsBetween minVer maxVer p =
      [minVer, maxVer] ++ synthMinors maxVer (synthFuel maxVer) minVer := by
    simp only [getMinorVersionsBetween, hmin, hmax, if_neg hne]
  rw [hbase]
  have hlen : 3 ≤ minVer.segments.length := (NewVersion_some hmin).1
  obtain ⟨s0, s1, srest, hsegs⟩ :
      ∃ s0 s1 srest, minVer.segments = s0 :: s1 :: srest := by
    cases h0 : minVer.segments with
    | nil => rw [h0] at hlen; simp at hlen
    | cons a t =>
      cases h1 : t with
      | nil => rw [h0, h1] at hlen; simp at hlen
      | cons b u => exact ⟨a, b, u, by simp [h0, h1]⟩
  suffices hsyn : synthMinors maxVer (synthFuel maxVer) minVer = [] by
    rw [hsyn, List.append_nil]
  have hfuel : synthFuel maxVer = (minorOf maxVer + 1) + 1 := rfl
  rw [hfuel]
  have hunfold : synthMinors maxVer ((minorOf maxVer + 1) + 1) minVer =
      if minVer.segments.length < 2 then []
      else
        match NewVersion (String.mk (natChars (minVer.segments.getD 0 0) ++
            '.' :: natChars (minVer.segments.getD 1 0 + 1) ++ ['.', '0'])) with
        | none => []
        | some newVer =>
          if vlt maxVer newVer then []
          else newVer :: synthMinors maxVer (minorOf maxVer + 1) newVer := rfl
  rw [hunfold, if_neg (by omega : ¬ minVer.segments.length < 2)]
  rw [NewVersion_synth (minVer.segments.getD 0 0) (minVer.segments.getD 1 0 + 1)]
  have hminlt : vlt minVer ⟨[minVer.segments.getD 0 0,
      minVer.segments.getD 1 0 + 1, 0],
      verString ⟨[minVer.segments.getD 0 0,
        minVer.segments.getD 1 0 + 1, 0], ""⟩⟩ := by
    rw [vlt, cmpV]
    show cmpSegs minVer.segments
      [minVer.segments.getD 0 0, minVer.segments.getD 1 0 + 1, 0] = Ordering.lt
    rw [hsegs]
    have h0 : (s0 :: s1 :: srest).getD 0 0 = s0 := rfl
    have h1 : (s0 :: s1 :: srest).getD 1 0 = s1 := rfl
    rw [h0, h1]
    exact cmpSegs_minor_bump s0 s1 srest
  have hmaxlt := vlt_trans hgt hminlt
  show (if vlt maxVer _ then ([] : List GoVersion) else _) = []
  rw [if_pos hmaxlt]

/-- Witness for the amended C5 at the concrete reversed range
`1.27.0 > 1.24.0`. -/
theorem C5_amended_witness :
    getMinorVersionsBetween ⟨[1, 27, 0], "1.27.0"⟩ ⟨[1, 24, 0], "1.24.0"⟩
        ⟨"aks", "1.27.0", "1.24.0", ""⟩ =
      [⟨[1, 27, 0], "1.27.0"⟩, ⟨[1, 24, 0], "1.24.0"⟩] :=
  @C5_amended ⟨"aks", "1.27.0", "1.24.0", ""⟩ ⟨[1, 27, 0], "1.27.0"⟩
    ⟨[1, 24, 0], "1.24.0"⟩ (by decide) (by decide) (by decide)

/-- The scan predicate of the no-skip characterization: a candidate the
loop does not `continue` past. -/
def scanHit (cur : GoVersion) (v : GoVersion) : Bool :=
  decide (vlt cur v) && decide (2 ≤ v.segments.length)

theorem findLoop_noskip (cur : GoVersion) (maxM : Nat) :
    ∀ list : List GoVersion,
      findLoop cur maxM false list none =
        match list.find? (scanHit cur) with
        | none => none
        | some v => if maxM < v.segments.getD 1 0 then none else some v := by
  intro list
  induction list with
  | nil => rfl
  | cons v vs ih =>
    rw [findLoop]
    by_cases h1 : vle v cur
    · rw [if_pos h1]
      have hpred : scanHit cur v = false := by
        rw [scanHit]
        simp [not_vlt_of_vle h1]
      rw [List.find?_cons_of_neg _ (by simp [hpred]), ih]
    · rw [if_neg h1]
      by_cases h2 : v.segments.length < 2
      · rw [if_pos h2]
        have hpred : scanHit cur v = false := by
          rw [scanHit]
          simp
          intro _
          omega
        rw [List.find?_cons_of_neg _ (by simp [hpred]), ih]
      · rw [if_neg h2]
        have hpred : scanHit cur v = true := by
          rw [scanHit]
          simp [vlt_of_not_vle h1]
          omega
        rw [List.find?_cons_of_pos _ (by simp [hpred])]
        by_cases h3 : maxM < v.segments.getD 1 0
        · rw [if_pos h3]
          show (none : Option GoVersion) =
            if maxM < v.segments.getD 1 0 then none else some v
          rw [if_pos h3]
        · rw [if_neg h3]
          show (if false = true then findLoop cur maxM false vs (some v)
              else some v) =
            if maxM < v.segments.getD 1 0 then none else some v
          rw [if_neg (by simp : ¬ (false = true)), if_neg h3]

theorem find?_min_of_sorted (cur : GoVersion) :
    ∀ (l : List GoVersion), List.Pairwise vle l →
      ∀ v, l.find? (scanHit cur) = some v →
      ∀ w ∈ l, vlt cur w → 2 ≤ w.segments.length → vle v w := by
  intro l
  induction l with
  | nil => intro _ v hv; simp at hv
  | cons x xs ih =>
    intro hsort v hv w hw hlt hlen
    obtain ⟨hhead, htail⟩ := List.pairwise_cons.mp hsort
    by_cases hx : scanHit cur x = true
    · rw [List.find?_cons_of_pos _ hx] at hv
      have hxv : x = v := by injection hv
      subst hxv
      rcases List.mem_cons.mp hw with h1 | h1
      · subst h1; exact vle_refl _
      · exact hhead w h1
    · rw [List.find?_cons_of_neg _ (by simpa using hx)] at hv
      rcases List.mem_cons.mp hw with h1 | h1
      · subst h1
        rw [scanHit] at hx
        simp [hlt] at hx
        omega
      · exact ih htail v hv w h1 hlt hlen

/-- **C4 counterexample**: with candidates `[1.26.0, 2.0.0]` and current
version `1.24.0` on a no-skip (`S = 1`) platform, the first candidate
strictly greater than the current version whose minor component is within
the bound is `2.0.0` (minor `0 ≤ 25`), yet the stepper selects nothing:
the scan aborts at the first strictly-greater candidate `1.26.0` because
its minor exceeds the bound, and never reaches `2.0.0`. -/
theorem C4_counterexample :
    findNextAcceptableK8sVersion ⟨[1, 24, 0], "1.24.0"⟩
        [⟨[1, 26, 0], "1.26.0"⟩, ⟨[2, 0, 0], "2.0.0"⟩] false = none ∧
    List.find? (fun v => decide (vlt ⟨[1, 24, 0], "1.24.0"⟩ v) &&
        decide (minorOf v ≤ minorOf ⟨[1, 24, 0], "1.24.0"⟩ + 1))
      [⟨[1, 26, 0], "1.26.0"⟩, ⟨[2, 0, 0], "2.0.0"⟩] =
      some ⟨[2, 0, 0], "2.0.0"⟩ := by
  constructor <;> decide

/-- **C4 amended**: on a no-skip platform the stepper inspects only the
*first* strictly-greater candidate with at least two segments: it takes it
exactly when its minor component is within the bound, and otherwise emits
nothing — it never scans past an out-of-bound candidate to a later
in-bound one.  Consequently, on a sorted candidate list any version it
returns is a least strictly-greater candidate: no candidate is skipped. -/
theorem C4_amended (cur : GoVersion) (list : List GoVersion)
    (hsort : List.Pairwise vle list) :
    (findNextAcceptableK8sVersion cur list false =
      if cur.segments.length < 2 then none
      else
        match list.find? (scanHit cur) with
        | none => none
        | some v =>
          if minorOf v ≤ minorOf cur + 1 then some v else none) ∧
    ∀ v, findNextAcceptableK8sVersion cur list false = some v →
      ∀ w ∈ list, vlt cur w → 2 ≤ w.segments.length → vle v w := by
  have hchar : findNextAcceptableK8sVersion cur list false =
      if cur.segments.length < 2 then none
      else
        match list.find? (scanHit cur) with
        | none => none
        | some v =>
          if minorOf v ≤ minorOf cur + 1 then some v else none := by
    rw [findNextAcceptableK8sVersion]
    by_cases hc : cur.segments.length < 2
    · rw [if_pos hc, if_pos hc]
    · rw [if_neg hc, if_neg hc]
      rw [findLoop_noskip]
      cases hf : list.find? (scanHit cur) with
      | none => rfl
      | some v =>
        show (if cur.segments.getD 1 0 + (if false = true then 2 else 1) <
            v.segments.getD 1 0 then none else some v) = _
        rw [if_neg (by simp : ¬ (false = true))]
        have hr : (match some v with
            | none => none
            | some u =>
              if minorOf u ≤ minorOf cur + 1 then some u else none) =
            if minorOf v ≤ minorOf cur + 1 then some v else none := rfl
        rw [hr]
        by_cases hm : minorOf v ≤ minorOf cur + 1
        · rw [if_pos hm, if_neg (by rw [minorOf, minorOf] at hm; omega)]
        · rw [if_neg hm, if_pos (by rw [minorOf, minorOf] at hm; omega)]
  refine ⟨hchar, ?_⟩
  intro v hv w hw hlt hlen
  rw [hchar] at hv
  by_cases hc : cur.segments.length < 2
  · rw [if_pos hc] at hv
    exact Option.noConfusion hv
  · rw [if_neg hc] at hv
    revert hv
    cases hf : list.find? (scanHit cur) with
    | none => intro hv; exact Option.noConfusion hv
    | some u =>
      intro hv
      have hv' : (if minorOf u ≤ minorOf cur + 1 then some u else none) =
          some v := hv
      by_cases hm : minorOf u ≤ minorOf cur + 1
      · rw [if_pos hm] at hv'
        have huv : u = v := by injection hv'
        subst huv
        exact find?_min_of_sorted cur list hsort u hf w hw hlt hlen
      · rw [if_neg hm] at hv'
        exact Option.noConfusion hv'

/-- Modelled from the spec (§4.3 and the C3 claim): a single legal runtime
step under skip limit `S` draws its target from the candidate sequence, is
strictly increasing, and advances the minor component by at most `S`. -/
def LegalStep (S : Nat) (cands : List GoVersion) (u w : GoVersion) : Prop :=
  w ∈ cands ∧ vlt u w ∧ minorOf w ≤ minorOf u + S

instance (S : Nat) (cands : List GoVersion) (u w : GoVersion) :
    Decidable (LegalStep S cands u w) :=
  inferInstanceAs (Decidable (_ ∈ _ ∧ _ ∧ _))

/-- Modelled from the spec: a legal step sequence through the candidate
sequence, starting at `start` and visiting the listed versions. -/
def LegalChain (S : Nat) (cands : List GoVersion) (start : GoVersion)
    (chain : List GoVersion) : Prop :=
  List.Chain (LegalStep S cands) start chain

/-- Executable check for `LegalChain`. -/
def legalChainB (S : Nat) (cands : List GoVersion) :
    GoVersion → List GoVersion → Bool
  | _, [] => true
  | start, w :: rest =>
    decide (LegalStep S cands start w) && legalChainB S cands w rest

theorem legalChainB_iff (S : Nat) (cands : List GoVersion) :
    ∀ (chain : List GoVersion) (start : GoVersion),
      LegalChain S cands start chain ↔ legalChainB S cands start chain = true := by
  intro chain
  induction chain with
  | nil =>
    intro start
    simp [LegalChain, legalChainB]
  | cons w rest ih =>
    intro start
    rw [LegalChain, List.chain_cons, legalChainB]
    rw [Bool.and_eq_true, decide_eq_true_iff]
    exact and_congr Iff.rfl (ih w)

instance (S : Nat) (cands : List GoVersion) (start : GoVersion)
    (chain : List GoVersion) : Decidable (LegalChain S cands start chain) :=
  decidable_of_iff _ (legalChainB_iff S cands chain start).symm

/-- Within one major version, comparison order implies minor order. -/
theorem minor_mono_of_vle_major {a b : GoVersion} (hab : vle a b)
    (hmaj : majorOf a = majorOf b) (ha : 2 ≤ a.segments.length)
    (hb : 2 ≤ b.segments.length) : minorOf a ≤ minorOf b := by
  by_contra hlt
  push_neg at hlt
  obtain ⟨a0, a1, ar, hsa⟩ : ∃ a0 a1 ar, a.segments = a0 :: a1 :: ar := by
    cases h0 : a.segments with
    | nil => rw [h0] at ha; simp at ha
    | cons x t =>
      cases h1 : t with
      | nil => rw [h0, h1] at ha; simp at ha
      | cons y u => exact ⟨x, y, u, by simp [h0, h1]⟩
  obtain ⟨b0, b1, br, hsb⟩ : ∃ b0 b1 br, b.segments = b0 :: b1 :: br := by
    cases h0 : b.segments with
    | nil => rw [h0] at hb; simp at hb
    | cons x t =>
      cases h1 : t with
      | nil => rw [h0, h1] at hb; simp at hb
      | cons y u => exact ⟨x, y, u, by simp [h0, h1]⟩
  have ha0 : majorOf a = a0 := by rw [majorOf, hsa]; rfl
  have hb0 : majorOf b = b0 := by rw [majorOf, hsb]; rfl
  have ha1 : minorOf a = a1 := by rw [minorOf, hsa]; rfl
  have hb1 : minorOf b = b1 := by rw [minorOf, hsb]; rfl
  have heq0 : a0 = b0 := by rw [← ha0, ← hb0, hmaj]
  have hlt1 : b1 < a1 := by rw [← ha1, ← hb1]; exact hlt
  have hba : vlt b a := by
    rw [vlt, cmpV, hsa, hsb, heq0]
    show (if b0 < b0 then Ordering.lt
      else if b0 < b0 then Ordering.gt
      else cmpSegs (b1 :: br) (a1 :: ar)) = Ordering.lt
    rw [if_neg (Nat.lt_irrefl b0), if_neg (Nat.lt_irrefl b0)]
    show (if b1 < a1 then Ordering.lt
      else if a1 < b1 then Ordering.gt else cmpSegs br ar) = Ordering.lt
    rw [if_pos hlt1]
  exact not_vlt_of_vle hab hba

/-- A `findLoop` carrying a candidate on a sorted suffix returns a result
at least as large as the candidate. -/
theorem findLoop_cand_ge (u : GoVersion) (maxM : Nat) :
    ∀ (l : List GoVersion) (c : GoVersion), List.Pairwise vle l →
      (∀ x ∈ l, vle c x) →
      ∃ res, findLoop u maxM true l (some c) = some res ∧ vle c res := by
  intro l
  induction l with
  | nil => intro c _ _; exact ⟨c, rfl, vle_refl c⟩
  | cons v vs ih =>
    intro c hsort hc
    obtain ⟨hhead, htail⟩ := List.pairwise_cons.mp hsort
    rw [findLoop]
    by_cases h1 : vle v u
    · rw [if_pos h1]
      exact ih c htail (fun x hx => hc x (List.mem_cons_of_mem v hx))
    · rw [if_neg h1]
      by_cases h2 : v.segments.length < 2
      · rw [if_pos h2]
        exact ih c htail (fun x hx => hc x (List.mem_cons_of_mem v hx))
      · rw [if_neg h2]
        by_cases h3 : maxM < v.segments.getD 1 0
        · rw [if_pos h3]
          exact ⟨c, rfl, vle_refl c⟩
        · rw [if_neg h3, if_pos rfl]
          obtain ⟨res, hres, hge⟩ := ih v htail hhead
          exact ⟨res, hres,
            vle_trans (hc v (List.mem_cons_self v vs)) hge⟩

/-- On a sorted, minor-monotone candidate suffix, the scan returns some
result at least as large as any legal candidate in the suffix. -/
theorem findLoop_ge_aux (u : GoVersion) (maxM : Nat) :
    ∀ (l : List GoVersion), List.Pairwise vle l →
      (∀ x ∈ l, ∀ y ∈ l, vle x y → minorOf x ≤ minorOf y) →
      ∀ (cand : Option GoVersion) (w : GoVersion), w ∈ l → vlt u w →
        minorOf w ≤ maxM → 2 ≤ w.segments.length →
        ∃ res, findLoop u maxM true l cand = some res ∧ vle w res := by
  intro l
  induction l with
  | nil => intro _ _ cand w hw; simp at hw
  | cons v vs ih =>
    intro hsort hmono cand w hw hlt hminor hwlen
    obtain ⟨hhead, htail⟩ := List.pairwise_cons.mp hsort
    have hmono' : ∀ x ∈ vs, ∀ y ∈ vs, vle x y → minorOf x ≤ minorOf y :=
      fun x hx y hy => hmono x (List.mem_cons_of_mem v hx) y
        (List.mem_cons_of_mem v hy)
    rw [findLoop]
    by_cases h1 : vle v u
    · rw [if_pos h1]
      rcases List.mem_cons.mp hw with he | he
      · subst he
        exact absurd hlt (not_vlt_of_vle h1)
      · exact ih htail hmono' cand w he hlt hminor hwlen
    · rw [if_neg h1]
      by_cases h2 : v.segments.length < 2
      · rw [if_pos h2]
        rcases List.mem_cons.mp hw with he | he
        · subst he; omega
        · exact ih htail hmono' cand w he hlt hminor hwlen
      · rw [if_neg h2]
        by_cases h3 : maxM < v.segments.getD 1 0
        · exfalso
          rcases List.mem_cons.mp hw with he | he
          · subst he
            rw [minorOf] at hminor
            omega
          · have hvw : vle v w := hhead w he
            have : minorOf v ≤ minorOf w :=
              hmono v (List.mem_cons_self v vs) w (List.mem_cons_of_mem v he) hvw
            rw [minorOf, minorOf] at this
            rw [minorOf] at hminor
            omega
        · rw [if_neg h3, if_pos rfl]
          rcases List.mem_cons.mp hw with he | he
          · subst he
            exact findLoop_cand_ge u maxM vs w htail hhead
          · exact ih htail hmono' (some v) w he hlt hminor hwlen

/-- On a sorted single-major candidate list, `findNextAcceptableK8sVersion`
with skipping allowed returns a version at least as large as any legal
(S = 2) step target. -/
theorem findNext_ge {list : List GoVersion} {u w : GoVersion}
    (hsort : List.Pairwise vle list)
    (hmono : ∀ x ∈ list, ∀ y ∈ list, vle x y → minorOf x ≤ minorOf y)
    (hu2 : 2 ≤ u.segments.length)
    (hw : LegalStep 2 list u w) (hwlen : 2 ≤ w.segments.length) :
    ∃ res, findNextAcceptableK8sVersion u list true = some res ∧ vle w res := by
  obtain ⟨hmem, hlt, hminor⟩ := hw
  rw [findNextAcceptableK8sVersion, if_neg (by omega : ¬ u.segments.length < 2)]
  have : u.segments.getD 1 0 + (if (true : Bool) then 2 else 1) =
      minorOf u + 2 := rfl
  rw [this]
  exact findLoop_ge_aux u (minorOf u + 2) list hsort hmono none w hmem hlt
    hminor hwlen

/-- Witness for the amended C4 on the singleton candidate list `[1.25.0]`
from `1.24.0`. -/
theorem C4_amended_witness :
    (findNextAcceptableK8sVersion ⟨[1, 24, 0], "1.24.0"⟩
        [⟨[1, 25, 0], "1.25.0"⟩] false =
      if (⟨[1, 24, 0], "1.24.0"⟩ : GoVersion).segments.length < 2 then none
      else
        match ([⟨[1, 25, 0], "1.25.0"⟩] :
            List GoVersion).find? (scanHit ⟨[1, 24, 0], "1.24.0"⟩) with
        | none => none
        | some v =>
          if minorOf v ≤ minorOf ⟨[1, 24, 0], "1.24.0"⟩ + 1 then some v
          else none) ∧
    vle ⟨[1, 25, 0], "1.25.0"⟩ ⟨[1, 25, 0], "1.25.0"⟩ :=
  ⟨(C4_amended ⟨[1, 24, 0], "1.24.0"⟩ [⟨[1, 25, 0], "1.25.0"⟩] (by decide)).1,
    (C4_amended ⟨[1, 24, 0], "1.24.0"⟩ [⟨[1, 25, 0], "1.25.0"⟩] (by decide)).2
      ⟨[1, 25, 0], "1.25.0"⟩ (by decide) ⟨[1, 25, 0], "1.25.0"⟩ (by decide)
      (by decide) (by decide)⟩

/-- `n` iterations of the stepper's advance (staying put once `findNext`
returns nothing). -/
def greedyN (list : List GoVersion) (s : Bool) : Nat → GoVersion → GoVersion
  | 0, c => c
  | n+1, c =>
    match findNextAcceptableK8sVersion c list s with
    | none => c
    | some w => greedyN list s n w

theorem greedyN_none {list : List GoVersion} {s : Bool} {c : GoVersion}
    (h : findNextAcceptableK8sVersion c list s = none) :
    ∀ n, greedyN list s n c = c := by
  intro n
  cases n with
  | zero => rfl
  | succ n => rw [greedyN, h]

theorem greedyN_some {list : List GoVersion} {s : Bool} {c w : GoVersion}
    (h : findNextAcceptableK8sVersion c list s = some w) (n : Nat) :
    greedyN list s (n + 1) c = greedyN list s n w := by
  rw [greedyN, h]

theorem greedyN_ge (list : List GoVersion) (s : Bool) :
    ∀ (n : Nat) (c : GoVersion), vle c (greedyN list s n c) := by
  intro n
  induction n with
  | zero => intro c; exact vle_refl c
  | succ n ih =>
    intro c
    cases hn : findNextAcceptableK8sVersion c list s with
    | none => rw [greedyN_none hn]; exact vle_refl c
    | some w =>
      rw [greedyN_some hn]
      exact vle_trans (vle_of_vlt (findNext_some hn).2.1) (ih w)

/-- After exactly as many iterations as the stepper's chain length, the
greedy iteration lands on the chain's final version. -/
theorem greedyN_stepChainAux (list : List GoVersion) (s : Bool) :
    ∀ (f : Nat) (c : GoVersion),
      greedyN list s (stepChainAux list s f c).length c =
        ((stepChainAux list s f c).map (fun q => q.2)).getLastD c := by
  intro f
  induction f with
  | zero => intro c; rfl
  | succ f ih =>
    intro c
    cases hn : findNextAcceptableK8sVersion c list s with
    | none =>
      have h0 : stepChainAux list s (f + 1) c = [] := by
        rw [stepChainAux, hn]
      rw [h0]
      rfl
    | some w =>
      have h0 : stepChainAux list s (f + 1) c =
          (c, w) :: stepChainAux list s f w := by
        rw [stepChainAux, hn]
      rw [h0, List.length_cons, greedyN_some hn, List.map_cons,
        List.getLastD_cons]
      exact ih w

/-- Strictly before the end of the stepper's chain, the greedy iteration
is strictly below the chain's final version. -/
theorem greedyN_lt_final (list : List GoVersion) (s : Bool) :
    ∀ (f : Nat) (c : GoVersion) (k : Nat),
      k < (stepChainAux list s f c).length →
      vlt (greedyN list s k c)
        (greedyN list s (stepChainAux list s f c).length c) := by
  intro f
  induction f with
  | zero => intro c k hk; simp [stepChainAux] at hk
  | succ f ih =>
    intro c k hk
    cases hn : findNextAcceptableK8sVersion c list s with
    | none =>
      have h0 : stepChainAux list s (f + 1) c = [] := by
        rw [stepChainAux, hn]
      rw [h0] at hk
      simp at hk
    | some w =>
      have h0 : stepChainAux list s (f + 1) c =
          (c, w) :: stepChainAux list s f w := by
        rw [stepChainAux, hn]
      rw [h0, List.length_cons] at hk ⊢
      rw [greedyN_some hn]
      cases k with
      | zero =>
        show vlt c (greedyN list s (stepChainAux list s f w).length w)
        exact vlt_of_vlt_of_vle (findNext_some hn).2.1
          (greedyN_ge list s _ w)
      | succ j =>
        rw [greedyN_some hn]
        exact ih w j (by omega)

/-- Greedy dominance: the stepper's iterate from any point at least as far
along never falls behind a legal chain. -/
theorem greedy_dominates (list : List GoVersion) (cur : GoVersion)
    (hsort : List.Pairwise vle list)
    (hmaj : ∀ v ∈ list, majorOf v = majorOf cur)
    (hlen : ∀ v ∈ list, 2 ≤ v.segments.length)
    (hcur2 : 2 ≤ cur.segments.length) :
    ∀ (hs : List GoVersion) (c c' : GoVersion),
      List.Chain (LegalStep 2 list) c hs →
      vle c c' → (c = cur ∨ c ∈ list) → (c' = cur ∨ c' ∈ list) →
      vle (hs.getLastD c) (greedyN list true hs.length c') := by
  have hmono : ∀ x ∈ list, ∀ y ∈ list, vle x y → minorOf x ≤ minorOf y := by
    intro x hx y hy hxy
    exact minor_mono_of_vle_major hxy
      (by rw [hmaj x hx, hmaj y hy]) (hlen x hx) (hlen y hy)
  have hmem2 : ∀ z : GoVersion, (z = cur ∨ z ∈ list) →
      2 ≤ z.segments.length ∧ majorOf z = majorOf cur := by
    intro z hz
    rcases hz with hz | hz
    · subst hz; exact ⟨hcur2, rfl⟩
    · exact ⟨hlen z hz, hmaj z hz⟩
  intro hs
  induction hs with
  | nil =>
    intro c c' _ hcc' _ _
    exact hcc'
  | cons h1 rest ih =>
    intro c c' hchain hcc' hcmem hc'mem
    obtain ⟨hstep, hrest⟩ := List.chain_cons.mp hchain
    obtain ⟨h1mem, h1lt, h1minor⟩ := hstep
    rw [List.getLastD_cons]
    have hminor_cc' : minorOf c ≤ minorOf c' :=
      minor_mono_of_vle_major hcc'
        (by rw [(hmem2 c hcmem).2, (hmem2 c' hc'mem).2])
        (hmem2 c hcmem).1 (hmem2 c' hc'mem).1
    cases hn : findNextAcceptableK8sVersion c' list true with
    | none =>
      have hle : vle h1 c' := by
        by_contra hnle
        have hlt' : vlt c' h1 := vlt_of_not_vle hnle
        obtain ⟨res, hres, _⟩ := findNext_ge hsort hmono (hmem2 c' hc'mem).1
          ⟨h1mem, hlt',
            (by
              rw [minorOf, minorOf] at h1minor ⊢
              rw [minorOf, minorOf] at hminor_cc'
              omega)⟩ (hlen h1 h1mem)
        rw [hn] at hres
        exact Option.noConfusion hres
      have := ih h1 c' hrest hle (Or.inr h1mem) hc'mem
      rw [greedyN_none hn] at this ⊢
      exact this
    | some w =>
      rw [List.length_cons, greedyN_some hn]
      have hwmem := (findNext_some hn).1
      have hle : vle h1 w := by
        by_cases hcase : vle h1 c'
        · exact vle_trans hcase (vle_of_vlt (findNext_some hn).2.1)
        · have hlt' : vlt c' h1 := vlt_of_not_vle hcase
          obtain ⟨res, hres, hge⟩ := findNext_ge hsort hmono
            (hmem2 c' hc'mem).1
            ⟨h1mem, hlt',
              (by
                rw [minorOf, minorOf] at h1minor ⊢
                rw [minorOf, minorOf] at hminor_cc'
                omega)⟩ (hlen h1 h1mem)
          rw [hn] at hres
          have : w = res := by injection hres
          rw [this]
          exact hge
      exact ih h1 w hrest hle (Or.inr h1mem) (Or.inr hwmem)

/-- **C3 counterexample**: on the no-skip platform `aks` (S = 1) with
candidate sequence `[1.25.0, 1.25.3]` and start `1.24.0`, the stepper
emits two steps (`1.24.0 → 1.25.0 → 1.25.3`), but the one-step chain
`1.24.0 → 1.25.3` is legal under the claim's own constraint (target in
the candidate sequence, strictly increasing, minor advance `1 ≤ S`) and
reaches the same final version — so the stepper's list is not fewest-step. -/
theorem C3_counterexample :
    GetAllowedK8sUpgrades "1.24.0" "aks" ⟨[]⟩
        ⟨[⟨"aks", "1.25.0", "1.25.3", ""⟩]⟩ =
      [UpgradeStep.mk "Kubernetes" "aks" "v1.24.0" "v1.25.0",
        UpgradeStep.mk "Kubernetes" "aks" "v1.25.0" "v1.25.3"] ∧
    LegalChain 1
      (getSortedK8sVersions "aks" ⟨[]⟩ ⟨[⟨"aks", "1.25.0", "1.25.3", ""⟩]⟩)
      ⟨[1, 24, 0], "1.24.0"⟩ [⟨[1, 25, 3], "1.25.3"⟩] ∧
    "v" ++ (⟨[1, 25, 3], "1.25.3"⟩ : GoVersion).original = "v1.25.3" ∧
    ([⟨[1, 25, 3], "1.25.3"⟩] : List GoVersion).length < 2 := by
  refine ⟨by decide, by decide, by decide, by decide⟩

/-- **C3 amended**: for a skip-permitting stepper run (S = 2), on a sorted
candidate sequence whose members all share the starting version's major
component (and have at least two segments, as every parsed version does),
the emitted chain has the fewest possible steps: every legal chain from
the same start that reaches the stepper's final version is at least as
long.  (The unamended claim fails for S = 1 platforms — the stepper takes
the first acceptable candidate, not the furthest — and across major
versions, where the ascending scan stops early.) -/
theorem C3_amended (cur : GoVersion) (list : List GoVersion)
    (hsort : List.Pairwise vle list)
    (hmaj : ∀ v ∈ list, majorOf v = majorOf cur)
    (hlen : ∀ v ∈ list, 2 ≤ v.segments.length)
    (hcur2 : 2 ≤ cur.segments.length)
    (hs : List GoVersion)
    (hchain : LegalChain 2 list cur hs)
    (hfinal : hs.getLastD cur =
      ((stepChain cur list true).map (fun q => q.2)).getLastD cur) :
    (stepChain cur list true).length ≤ hs.length := by
  by_contra hnle
  push_neg at hnle
  have hdom := greedy_dominates list cur hsort hmaj hlen hcur2 hs cur cur
    hchain (vle_refl cur) (Or.inl rfl) (Or.inl rfl)
  have hstepeq : stepChain cur list true =
      stepChainAux list true (list.length + 1) cur := rfl
  have hstrict := greedyN_lt_final list true (list.length + 1) cur hs.length
    (by rw [← hstepeq]; exact hnle)
  have hfin := greedyN_stepChainAux list true (list.length + 1) cur
  rw [← hstepeq] at hstrict hfin
  rw [hfin, ← hfinal] at hstrict
  exact vlt_irrefl _ (vlt_of_vle_of_vlt hdom hstrict)

/-- Witness for the amended C3: the spec's own scenario — candidates
`1.24.0 … 1.27.0` in major 1, start `1.24.0`, S = 2; the stepper's
two-step chain `1.24.0 → 1.26.0 → 1.27.0` is matched against the equally
long legal chain visiting the same versions. -/
theorem C3_amended_witness :
    (stepChain ⟨[1, 24, 0], "1.24.0"⟩
      [⟨[1, 24, 0], "1.24.0"⟩, ⟨[1, 25, 0], "1.25.0"⟩,
        ⟨[1, 26, 0], "1.26.0"⟩, ⟨[1, 27, 0], "1.27.0"⟩] true).length ≤
      ([⟨[1, 26, 0], "1.26.0"⟩, ⟨[1, 27, 0], "1.27.0"⟩] :
        List GoVersion).length :=
  C3_amended ⟨[1, 24, 0], "1.24.0"⟩
    [⟨[1, 24, 0], "1.24.0"⟩, ⟨[1, 25, 0], "1.25.0"⟩,
      ⟨[1, 26, 0], "1.26.0"⟩, ⟨[1, 27, 0], "1.27.0"⟩]
    (by decide) (by decide) (by decide) (by decide)
    [⟨[1, 26, 0], "1.26.0"⟩, ⟨[1, 27, 0], "1.27.0"⟩]
    (by decide) (by decide)
